import Mathlib

/-!
# Verification of the `depmap` dependency-resolution engine

This file gives a shallow embedding, in Lean, of the Rust crate in
`src/lib.rs` (the `DepMap` layered work store together with its operations
`new`, `is_empty`, `destroy`, `add`, `get_free`, `drop_cur` and the driver
`process`), and proves the specified properties about that embedding.

Modelling choices:
* `Vec<T>` becomes `List T`; `Vec::swap_remove(0)` becomes `swapRemove0`
  (the head is removed and the last element moved into its slot).
* The producer `FnMut(&T) -> Result<I, E>` becomes a pure function
  `T → Except E (List T)`; the whole (finite) dependency list is yielded
  at once, which matches the Rust code because the iterator obtained from
  a successful producer call is itself infallible.
* Indexing `self.list[k]` becomes `List.getD _ k []` and `list[0]` becomes
  `List.headI`; on the states actually reached by the driver every indexed
  layer is in bounds and non-empty, so the defaults are never exercised.
* The driver loop `process` is given explicit fuel; termination claims are
  stated as the existence of sufficient fuel.
* `process` is additionally instrumented (`processFull`) to record the
  sequence of arguments the producer is invoked with, so that claims about
  the number of producer invocations can be stated.
-/

namespace Depmap

deriving instance DecidableEq for Except

/-- The error enum of the crate (lib.rs lines 8-14): a cyclic-dependency
chain or a user-defined error. -/
inductive Error (T E : Type) where
  | CyclicDep : List T → Error T E
  | UserDef : E → Error T E
  deriving DecidableEq

/-- The `From<E> for Error<T, E>` impl (lib.rs lines 16-20): a producer
error is wrapped unchanged as `UserDef`. -/
def Error.fromUser {T E : Type} (e : E) : Error T E := .UserDef e

/-- The dependency map state (lib.rs lines 22-32): a list of layers, the
result list, and the number of used (active) layers. -/
structure DepMap (T : Type) where
  list : List (List T)
  result : List T
  used : Nat
  deriving DecidableEq

/-- `Vec::swap_remove(0)`: remove the first element, moving the last
element of the vector into its place. -/
def swapRemove0 {T : Type} : List T → List T
  | [] => []
  | [_] => []
  | _ :: b :: bs => (b :: bs).getLast (List.cons_ne_nil b bs) :: (b :: bs).dropLast

variable {T E : Type} [DecidableEq T] [Inhabited T]

/-- `DepMap::new` (lib.rs lines 36-42). -/
def DepMap.new (l : List T) : DepMap T :=
  { used := if l = [] then 0 else 1, list := [l], result := [] }

/-- `DepMap::is_empty` (lib.rs lines 70-72). -/
def DepMap.is_empty (st : DepMap T) : Bool := st.used == 0

/-- `DepMap::destroy` (lib.rs lines 77-83). -/
def DepMap.destroy (st : DepMap T) : Except (DepMap T) (List T) :=
  if st.is_empty then .ok st.result else .error st

/-- The layer at depth `k` (`self.list[k]`). -/
def DepMap.layer (st : DepMap T) (k : Nat) : List T := st.list.getD k []

/-- The active-path items: the first element of each active layer
(`self.list[0..self.used].iter().map(|list| &list[0])`). -/
def DepMap.heads (st : DepMap T) : List T := (st.list.take st.used).map List.headI

/-- The current frontier item `self.list[self.used - 1][0]`. -/
def DepMap.frontier (st : DepMap T) : T := (st.layer (st.used - 1)).headI

/-- `DepMap::get_free` (lib.rs lines 129-137), returning the taken layer
together with the store it leaves behind. -/
def DepMap.get_free (st : DepMap T) : List T × DepMap T :=
  if st.used < st.list.length then
    (st.list.getLast?.getD [], { st with list := st.list.dropLast })
  else
    ([], st)

/-- Outcome of the dependency-classification loop inside `add`. -/
inductive Scan (T : Type) where
  | cycle : Nat → Scan T
  | done : List T → Scan T
  deriving DecidableEq

/-- `Iterator::position`: the index of the first element satisfying `p`. -/
def position {A : Type} (p : A → Bool) : List A → Option Nat
  | [] => none
  | a :: as => if p a then some 0 else (position p as).map (fun i => i + 1)

/-- The `for tgt in (f)(..)? { .. }` classification loop of `add`
(lib.rs lines 99-113): skip already-finalized targets, fail at the first
target equal to an active-path item, and append the rest to the free
layer being built. -/
def scanDeps (result : List T) (heads : List T) : List T → List T → Scan T
  | free, [] => .done free
  | free, tgt :: rest =>
    if tgt ∈ result then
      scanDeps result heads free rest
    else
      match position (fun c => c == tgt) heads with
      | some pos => .cycle pos
      | none => scanDeps result heads (free ++ [tgt]) rest

/-- `Vec::swap(i, j)` on a list (used by `add` to move the new layer into
the used region). -/
def listSwap {A : Type} (l : List A) (i j : Nat) : List A :=
  match l[i]?, l[j]? with
  | some a, some b => (l.set i b).set j a
  | _, _ => l

/-- The inner search loop of `drop_cur` (lib.rs lines 148-162), with
structural fuel so that the kernel can evaluate it: repeatedly remove the
first element while it is already in the result list; stop on the first
unhandled element or when the layer empties.  Each step shortens the
layer by one, so fuel `l.length` (as used by `dropScan`) always
suffices and the out-of-fuel branch is never taken. -/
def dropScanF (result : List T) : Nat → List T → List T
  | 0, l => l
  | n + 1, l =>
    if l = [] then []
    else if l.headI ∈ result then dropScanF result n (swapRemove0 l) else l

/-- The inner search loop of `drop_cur` (lib.rs lines 148-162). -/
def dropScan (result l : List T) : List T := dropScanF result l.length l

/-- The outer loop of `drop_cur` (lib.rs lines 140-171), on the raw
components: finalize the head of the deepest layer, clean the layer with
`dropScan`, and either stop (sibling found) or free the layer and ascend. -/
def dropCurAux : List (List T) → List T → Nat → List (List T) × List T × Nat
  | list, result, 0 => (list, result, 0)
  | list, result, u + 1 =>
    let l := list.getD u []
    let result1 := result ++ [l.headI]
    let l1 := dropScan result1 (swapRemove0 l)
    let list1 := list.set u l1
    if l1 = [] then dropCurAux list1 result1 u else (list1, result1, u + 1)

/-- `DepMap::drop_cur` (lib.rs lines 140-171). -/
def DepMap.drop_cur (st : DepMap T) : DepMap T :=
  let r := dropCurAux st.list st.result st.used
  { list := r.1, result := r.2.1, used := r.2.2 }

/-- `DepMap::add` (lib.rs lines 90-126). -/
def DepMap.add (g : T → Except E (List T)) (st : DepMap T) :
    Except E (DepMap T × Option (List T)) :=
  if st.used = 0 then .ok (st, none)
  else
    let free := st.get_free.1
    let st1 := st.get_free.2
    match g st1.frontier with
    | .error e => .error e
    | .ok deps =>
      match scanDeps st1.result st1.heads free deps with
      | .cycle pos =>
        .ok ({ st1 with list := st1.list ++ [[]] },
             some (((st1.list.take st1.used).drop pos).map List.headI))
      | .done free1 =>
        if free1 = [] then .ok (st1.drop_cur, none)
        else
          .ok ({ st1 with
                 list := listSwap (st1.list ++ [free1]) st1.list.length st1.used,
                 used := st1.used + 1 }, none)

/-- `DepMap::process` (lib.rs lines 47-67), with explicit fuel,
instrumented with the list of items the producer is invoked on.
On a cycle the error chain is materialized exactly the way the driver
does it: `swap_remove(0)` on each of the last `chain.length` active
layers, i.e. the heads of those layers. -/
def DepMap.processFull (g : T → Except E (List T)) :
    Nat → DepMap T → Option (Except (Error T E) (List T)) × List T
  | 0, _ => (none, [])
  | fuel + 1, st =>
    match st.destroy with
    | .ok res => (some (.ok res), [])
    | .error st0 =>
      match st0.add g with
      | .error e => (some (.error (Error.fromUser e)), [st0.frontier])
      | .ok (st1, some chain) =>
        (some (.error (.CyclicDep
          (((st1.list.take st1.used).drop (st1.used - chain.length)).map List.headI))),
         [st0.frontier])
      | .ok (st1, none) =>
        let r := processFull g fuel st1
        (r.1, st0.frontier :: r.2)

/-- `DepMap::process` proper: just the outcome. -/
def DepMap.process (g : T → Except E (List T)) (fuel : Nat) (initial : List T) :
    Option (Except (Error T E) (List T)) :=
  (DepMap.processFull g fuel (DepMap.new initial)).1

/-- The direct-dependency relation induced by a producer: `d` is yielded
for `a`. -/
def DirectDep (g : T → Except E (List T)) (a d : T) : Prop :=
  ∃ l, g a = .ok l ∧ d ∈ l

/-- An infallible producer, as used by the claims in which the producer
never errors. -/
def okProd (g : T → List T) : T → Except Unit (List T) := fun x => .ok (g x)

/-- Reachability from the initial item list through producer-yielded
dependencies. -/
def Reach (g : T → Except E (List T)) (init : List T) (x : T) : Prop :=
  ∃ a ∈ init, Relation.ReflTransGen (DirectDep g) a x

/-- `b` appears strictly before `a` in the list `res`. -/
def Before (res : List T) (b a : T) : Prop :=
  b ∈ res ∧ a ∈ res ∧ res.indexOf b < res.indexOf a

/-! ### Example producers used for concrete runs -/

/-- A -> [B]; B -> [A] (two-cycle), with A = 0, B = 1. -/
def exProdAB : Nat → Except Unit (List Nat) :=
  fun n => .ok (if n = 0 then [1] else [0])

/-- A -> [A] (self-cycle), with A = 0. -/
def exProdAA : Nat → Except Unit (List Nat) := fun _ => .ok [0]

/-- The diamond A -> [B, C]; B -> [D]; C -> [D]; D -> [], with
A, B, C, D = 0, 1, 2, 3. -/
def exProdDiamond : Nat → Except Unit (List Nat) :=
  fun n => .ok (if n = 0 then [1, 2] else if n = 1 then [3] else if n = 2 then [3] else [])

/-- The diamond again, as a pure (infallible) graph. -/
def exGraphDiamond : Nat → List Nat :=
  fun n => if n = 0 then [1, 2] else if n = 1 then [3] else if n = 2 then [3] else []

/-- The two-cycle as a pure (infallible) graph. -/
def exGraphAB : Nat → List Nat := fun n => if n = 0 then [1] else [0]

/-- A producer that fails on item 1: 0 -> [1], 1 -> error 42. -/
def exProdErr : Nat → Except Nat (List Nat) :=
  fun n => if n = 1 then .error 42 else .ok [1]

/-- The two-element acyclic chain 0 -> [1], 1 -> [] as a pure graph. -/
def exGraphChain : Nat → List Nat := fun n => if n = 0 then [1] else []

/-! ## Structural invariants of the layered work store -/

/-- Invariant I2: every active layer is non-empty. -/
def activeNonempty (st : DepMap T) : Prop := ∀ k, k < st.used → st.layer k ≠ []

/-- Invariant I3: every free layer is empty. -/
def freeEmpty (st : DepMap T) : Prop :=
  ∀ k, k < st.list.length → st.used ≤ k → st.layer k = []

/-- Strengthening of invariant I5: every member of an active layer differs
from the active item of every shallower active layer. -/
def membersNotHeads (st : DepMap T) : Prop :=
  ∀ k, k < st.used → ∀ j, j < k → ∀ x ∈ st.layer k, x ≠ (st.layer j).headI

/-- Invariant I5: the active-path items are pairwise distinct. -/
def headsDistinct (st : DepMap T) : Prop :=
  ∀ j, j < st.used → ∀ k, k < st.used → j ≠ k → (st.layer j).headI ≠ (st.layer k).headI

/-- Invariant I4 restricted to active items: no active item is already
finalized. -/
def headsNotDone (st : DepMap T) : Prop :=
  ∀ k, k < st.used → (st.layer k).headI ∉ st.result

/-- The structural invariant maintained by every operation of the store:
the used count is in bounds, free layers are empty (I3), active layers
are non-empty (I2), members of active layers avoid all shallower active
items (which yields I5), active items are not yet finalized, and the
result list has no duplicates. -/
def StInv (st : DepMap T) : Prop :=
  st.used ≤ st.list.length ∧ freeEmpty st ∧ activeNonempty st ∧ membersNotHeads st ∧
    headsNotDone st ∧ st.result.Nodup

instance (st : DepMap T) : Decidable (activeNonempty st) :=
  inferInstanceAs (Decidable (∀ k, k < st.used → st.layer k ≠ []))

instance (st : DepMap T) : Decidable (freeEmpty st) :=
  inferInstanceAs (Decidable (∀ k, k < st.list.length → st.used ≤ k → st.layer k = []))

instance (st : DepMap T) : Decidable (membersNotHeads st) :=
  inferInstanceAs (Decidable
    (∀ k, k < st.used → ∀ j, j < k → ∀ x ∈ st.layer k, x ≠ (st.layer j).headI))

instance (st : DepMap T) : Decidable (headsDistinct st) :=
  inferInstanceAs (Decidable
    (∀ j, j < st.used → ∀ k, k < st.used → j ≠ k →
      (st.layer j).headI ≠ (st.layer k).headI))

instance (st : DepMap T) : Decidable (headsNotDone st) :=
  inferInstanceAs (Decidable (∀ k, k < st.used → (st.layer k).headI ∉ st.result))

instance (st : DepMap T) : Decidable (StInv st) :=
  inferInstanceAs (Decidable (_ ∧ _ ∧ _ ∧ _ ∧ _ ∧ _))

/-- The producer-dependent invariant maintained by the driver loop:
atop the structural invariant, every finalized item was produced and all
its dependencies are finalized strictly before it; the dependencies of
every non-frontier active item are either finalized or queued in the
layer directly below it, and that layer holds only such dependencies;
everything stored is reachable from the initial list; and every initial
item is either finalized or still queued. -/
structure GInv (g : T → Except E (List T)) (init : List T) (st : DepMap T) : Prop where
  base : StInv st
  topo : ∀ x ∈ st.result, ∃ l, g x = .ok l ∧ ∀ d ∈ l, Before st.result d x
  parentDeps : ∀ k, k + 1 < st.used →
    ∃ l, g ((st.layer k).headI) = .ok l ∧
      (∀ d ∈ l, d ∈ st.result ∨ d ∈ st.layer (k + 1)) ∧
      (∀ x ∈ st.layer (k + 1), x ∈ l)
  reachAll : ∀ x, (x ∈ st.result ∨ ∃ k, k < st.used ∧ x ∈ st.layer k) → Reach g init x
  initCov : ∀ x ∈ init, x ∈ st.result ∨ ∃ k, k < st.used ∧ x ∈ st.layer k

/-- Termination measure for the driver loop, relative to a bound `N` on
the number of reachable items: each `add` step either finalizes at least
one item or descends one level, and both the result length and the used
count stay at most `N`. -/
def gauge (N : Nat) (st : DepMap T) : Nat :=
  (N + 1 - st.result.length) * (N + 2) + (N + 1 - st.used)

/-- What one run of the finalization cascade `dropCurAux` does to the raw
components `(list, result, u)`, producing `(list', result', u')`: layer
lengths are preserved; the used count does not grow; strictly shallower
layers are untouched; layers at or beyond the old used count are
untouched; layers between the new and old used count have been emptied;
the new deepest layer lost members but kept only original ones, is
non-empty, and its head is unfinalized; the result grew by at least one
item, all new items coming from the processed layers; the result stays
duplicate-free; and every member of a processed layer either got
finalized or survives in place. -/
structure DropCurOut (list list' : List (List T)) (result result' : List T)
    (u u' : Nat) : Prop where
  len_eq : list'.length = list.length
  used_le : u' ≤ u
  lower : ∀ k, k + 1 < u' → list'.getD k [] = list.getD k []
  upper : ∀ k, u ≤ k → list'.getD k [] = list.getD k []
  cleared : ∀ k, u' ≤ k → k < u → list'.getD k [] = []
  last_sub : ∀ x ∈ list'.getD (u' - 1) [], x ∈ list.getD (u' - 1) []
  last_ne : u' ≠ 0 → list'.getD (u' - 1) [] ≠ []
  last_head : u' ≠ 0 → (list'.getD (u' - 1) []).headI ∉ result'
  res_ext : ∃ news, result' = result ++ news ∧ (u ≠ 0 → news ≠ []) ∧
    ∀ x ∈ news, ∃ m, u' - 1 ≤ m ∧ m < u ∧ x ∈ list.getD m []
  res_nodup : result'.Nodup
  mem_cover : ∀ k, k < u → ∀ x ∈ list.getD k [], x ∈ result' ∨ (k < u' ∧ x ∈ list'.getD k [])
  heads_pushed : ∀ m, u' - 1 ≤ m → m < u → (list.getD m []).headI ∈ result'

/-! ## Basic list lemmas -/

theorem headI_mem {A : Type} [Inhabited A] {l : List A} (h : l ≠ []) : l.headI ∈ l := by
  cases l with
  | nil => exact absurd rfl h
  | cons a as => simp [List.headI]

theorem headI_cons_tail {A : Type} [Inhabited A] {l : List A} (h : l ≠ []) :
    l.headI :: l.tail = l := by
  cases l with
  | nil => exact absurd rfl h
  | cons a as => simp [List.headI]

theorem getD_set_self {A : Type} {l : List A} {k : Nat} {a d : A} (h : k < l.length) :
    (l.set k a).getD k d = a := by
  simp [List.getD, List.getElem?_set_self, h]

theorem getD_set_ne {A : Type} {l : List A} {k j : Nat} {a d : A} (h : k ≠ j) :
    (l.set k a).getD j d = l.getD j d := by
  simp [List.getD, List.getElem?_set_ne h]

theorem getD_append {A : Type} {l t : List A} {k : Nat} {d : A} (h : k < l.length) :
    (l ++ t).getD k d = l.getD k d := by
  simp [List.getD, List.getElem?_append, h]

theorem getD_append_right {A : Type} {l t : List A} {k : Nat} {d : A} (h : l.length ≤ k) :
    (l ++ t).getD k d = t.getD (k - l.length) d := by
  simp [List.getD, List.getElem?_append_right h]

theorem getD_of_le {A : Type} {l : List A} {k : Nat} {d : A} (h : l.length ≤ k) :
    l.getD k d = d := by
  simp [List.getD, List.getElem?_eq_none h]

theorem getD_dropLast {A : Type} {l : List A} {k : Nat} {d : A} (h : k < l.length - 1) :
    l.dropLast.getD k d = l.getD k d := by
  have hk : k < l.length := by omega
  simp [List.getD, List.getElem?_dropLast, h, List.getElem?_eq_getElem hk]

theorem getD_mem {A : Type} {l : List A} {k : Nat} {d : A} (h : k < l.length) :
    l.getD k d ∈ l := by
  simp only [List.getD, List.get?_eq_getElem?, List.getElem?_eq_getElem h, Option.getD_some]
  exact List.getElem_mem h

/-! ## swapRemove0 lemmas -/

theorem swapRemove0_perm {l : List T} (h : l ≠ []) : (swapRemove0 l).Perm l.tail := by
  cases l with
  | nil => exact absurd rfl h
  | cons a as =>
    cases as with
    | nil => simp [swapRemove0]
    | cons b bs =>
      show (((b :: bs).getLast (List.cons_ne_nil b bs)) :: (b :: bs).dropLast).Perm (b :: bs)
      have hd := List.dropLast_append_getLast (l := b :: bs) (List.cons_ne_nil b bs)
      have hp : (((b :: bs).getLast (List.cons_ne_nil b bs)) :: (b :: bs).dropLast).Perm
          ((b :: bs).dropLast ++ [(b :: bs).getLast (List.cons_ne_nil b bs)]) :=
        (List.perm_append_singleton _ _).symm
      rw [hd] at hp
      exact hp

theorem mem_swapRemove0 {l : List T} {x : T} (hx : x ∈ swapRemove0 l) : x ∈ l := by
  rcases l with _ | ⟨a, as⟩
  · simpa [swapRemove0] using hx
  · have := (swapRemove0_perm (l := a :: as) (by simp)).mem_iff.1 hx
    simp at this
    simp [this]

theorem mem_headI_or_swapRemove0 {l : List T} {x : T} (h : l ≠ []) (hx : x ∈ l) :
    x = l.headI ∨ x ∈ swapRemove0 l := by
  rcases l with _ | ⟨a, as⟩
  · exact absurd rfl h
  · rcases List.mem_cons.1 hx with h1 | h1
    · left; simpa [List.headI] using h1
    · right
      exact (swapRemove0_perm (l := a :: as) (by simp)).symm.subset (by simpa using h1)

theorem swapRemove0_length {l : List T} : (swapRemove0 l).length = l.length - 1 := by
  rcases l with _ | ⟨a, as⟩
  · simp [swapRemove0]
  · have := (swapRemove0_perm (l := a :: as) (by simp)).length_eq
    simpa using this

/-! ## dropScan lemmas -/

theorem dropScanF_nil (r : List T) : ∀ m, dropScanF r m [] = [] := by
  intro m
  cases m <;> simp [dropScanF]

theorem dropScanF_eq_of_le (r : List T) :
    ∀ {n : Nat} {l : List T} {m : Nat}, l.length ≤ n → l.length ≤ m →
      dropScanF r n l = dropScanF r m l := by
  intro n
  induction n with
  | zero =>
    intro l m h1 _
    have : l = [] := List.length_eq_zero.1 (Nat.le_zero.1 h1)
    subst this
    rw [dropScanF_nil, dropScanF_nil]
  | succ n ih =>
    intro l m h1 h2
    cases l with
    | nil => rw [dropScanF_nil, dropScanF_nil]
    | cons a as =>
      cases m with
      | zero => simp at h2
      | succ m =>
        show (if (a :: as) = [] then []
            else if (a :: as).headI ∈ r then dropScanF r n (swapRemove0 (a :: as))
            else (a :: as)) =
          (if (a :: as) = [] then []
            else if (a :: as).headI ∈ r then dropScanF r m (swapRemove0 (a :: as))
            else (a :: as))
        have hlen : (swapRemove0 (a :: as)).length = as.length := by
          have := swapRemove0_length (l := a :: as)
          simpa using this
        by_cases hh : (a :: as).headI ∈ r
        · simp only [if_neg (List.cons_ne_nil a as), if_pos hh]
          exact ih (by simp at h1 ⊢; omega) (by simp at h2 ⊢; omega)
        · simp only [List.headI] at hh
          simp [hh]

theorem dropScan_eq (r l : List T) :
    dropScan r l = if l = [] then []
      else if l.headI ∈ r then dropScan r (swapRemove0 l) else l := by
  cases l with
  | nil => simp [dropScan, dropScanF_nil]
  | cons a as =>
    show dropScanF r (as.length + 1) (a :: as) = _
    have hlen : (swapRemove0 (a :: as)).length = as.length := by
      have := swapRemove0_length (l := a :: as)
      simpa using this
    by_cases hh : (a :: as).headI ∈ r
    · show (if (a :: as) = [] then []
          else if (a :: as).headI ∈ r then dropScanF r as.length (swapRemove0 (a :: as))
          else (a :: as)) = _
      simp only [if_neg (List.cons_ne_nil a as), if_pos hh]
      exact dropScanF_eq_of_le r (by omega) le_rfl
    · show (if (a :: as) = [] then []
          else if (a :: as).headI ∈ r then dropScanF r as.length (swapRemove0 (a :: as))
          else (a :: as)) = _
      simp only [List.headI] at hh
      simp [hh, List.headI]

theorem dropScan_subset_aux (r : List T) :
    ∀ (n : Nat) (l : List T), l.length ≤ n → ∀ x ∈ dropScan r l, x ∈ l := by
  intro n
  induction n with
  | zero =>
    intro l hl x hx
    have : l = [] := List.length_eq_zero.1 (Nat.le_zero.1 hl)
    rw [dropScan_eq, if_pos this] at hx
    simp at hx
  | succ n ih =>
    intro l hl x hx
    rw [dropScan_eq] at hx
    by_cases h0 : l = []
    · rw [if_pos h0] at hx; simp at hx
    · rw [if_neg h0] at hx
      by_cases hh : l.headI ∈ r
      · rw [if_pos hh] at hx
        have hlen : (swapRemove0 l).length ≤ n := by
          have h1 := swapRemove0_length (l := l)
          have : l.length ≠ 0 := fun hc => h0 (List.length_eq_zero.1 hc)
          omega
        exact mem_swapRemove0 (ih (swapRemove0 l) hlen x hx)
      · rw [if_neg hh] at hx; exact hx

theorem dropScan_subset {r l : List T} {x : T} (hx : x ∈ dropScan r l) : x ∈ l :=
  dropScan_subset_aux r l.length l le_rfl x hx

theorem dropScan_cover_aux (r : List T) :
    ∀ (n : Nat) (l : List T), l.length ≤ n → ∀ x ∈ l, x ∈ dropScan r l ∨ x ∈ r := by
  intro n
  induction n with
  | zero =>
    intro l hl x hx
    have : l = [] := List.length_eq_zero.1 (Nat.le_zero.1 hl)
    subst this; simp at hx
  | succ n ih =>
    intro l hl x hx
    rw [dropScan_eq]
    have h0 : l ≠ [] := fun hc => by subst hc; simp at hx
    rw [if_neg h0]
    by_cases hh : l.headI ∈ r
    · rw [if_pos hh]
      rcases mem_headI_or_swapRemove0 h0 hx with h1 | h1
      · right; rw [h1]; exact hh
      · have hlen : (swapRemove0 l).length ≤ n := by
          have h1 := swapRemove0_length (l := l)
          have : l.length ≠ 0 := fun hc => h0 (List.length_eq_zero.1 hc)
          omega
        exact ih (swapRemove0 l) hlen x h1
    · rw [if_neg hh]
      left; exact hx

theorem dropScan_cover {r l : List T} {x : T} (hx : x ∈ l) : x ∈ dropScan r l ∨ x ∈ r :=
  dropScan_cover_aux r l.length l le_rfl x hx

theorem dropScan_head_aux (r : List T) :
    ∀ (n : Nat) (l : List T), l.length ≤ n → dropScan r l ≠ [] → (dropScan r l).headI ∉ r := by
  intro n
  induction n with
  | zero =>
    intro l hl hne
    have : l = [] := List.length_eq_zero.1 (Nat.le_zero.1 hl)
    rw [dropScan_eq, if_pos this] at hne
    exact absurd rfl hne
  | succ n ih =>
    intro l hl hne
    rw [dropScan_eq] at hne ⊢
    by_cases h0 : l = []
    · rw [if_pos h0] at hne; exact absurd rfl hne
    · rw [if_neg h0] at hne ⊢
      by_cases hh : l.headI ∈ r
      · rw [if_pos hh] at hne ⊢
        have hlen : (swapRemove0 l).length ≤ n := by
          have h1 := swapRemove0_length (l := l)
          have : l.length ≠ 0 := fun hc => h0 (List.length_eq_zero.1 hc)
          omega
        exact ih (swapRemove0 l) hlen hne
      · rw [if_neg hh] at hne ⊢
        exact hh

theorem dropScan_head {r l : List T} (hne : dropScan r l ≠ []) : (dropScan r l).headI ∉ r :=
  dropScan_head_aux r l.length l le_rfl hne

/-! ## strictly-before lemmas -/

theorem before_append {res t : List T} {b a : T} (h : Before res b a) : Before (res ++ t) b a := by
  obtain ⟨hb, ha, hlt⟩ := h
  refine ⟨List.mem_append_left _ hb, List.mem_append_left _ ha, ?_⟩
  rw [List.indexOf_append_of_mem hb, List.indexOf_append_of_mem ha]
  exact hlt

theorem before_extend {res : List T} {b a : T} (hb : b ∈ res) (ha : a ∉ res) :
    Before (res ++ [a]) b a := by
  refine ⟨List.mem_append_left _ hb, List.mem_append_right _ (by simp), ?_⟩
  rw [List.indexOf_append_of_mem hb, List.indexOf_append_of_not_mem ha]
  have := List.indexOf_lt_length.2 hb
  simp
  omega

theorem before_trans {res : List T} {b c a : T} (h1 : Before res b c) (h2 : Before res c a) :
    Before res b a :=
  ⟨h1.1, h2.2.1, Nat.lt_trans h1.2.2 h2.2.2⟩

theorem before_irrefl {res : List T} {a : T} (h : Before res a a) : False :=
  Nat.lt_irrefl _ h.2.2

theorem before_mem_left {res : List T} {b a : T} (h : Before res b a) : b ∈ res := h.1

theorem StInv.headsDistinct_of {st : DepMap T} (h : StInv st) : headsDistinct st := by
  obtain ⟨-, -, hne, hmnh, -, -⟩ := h
  intro j hj k hk hjk
  rcases Nat.lt_or_ge j k with hlt | hge
  · exact fun hc => hmnh k hk j hlt _ (headI_mem (hne k hk)) hc.symm
  · have hlt : k < j := by omega
    exact fun hc => (hmnh j hj k hlt _ (headI_mem (hne j hj)) hc).elim

theorem StInv.layer_empty_of_ge {st : DepMap T} (h : StInv st) {k : Nat}
    (hk : st.used ≤ k) : st.layer k = [] := by
  rcases Nat.lt_or_ge k st.list.length with hlt | hge
  · exact h.2.1 k hlt hk
  · exact getD_of_le hge

/-! ## position lemmas -/

theorem position_eq_none {A : Type} {p : A → Bool} :
    ∀ {l : List A}, position p l = none ↔ ∀ x ∈ l, ¬ p x := by
  intro l
  induction l with
  | nil => simp [position]
  | cons a as ih =>
    by_cases hp : p a
    · simp [position, hp]
    · simp [position, hp, ih]

theorem position_some_spec {A : Type} {p : A → Bool} (d : A) :
    ∀ {l : List A} {i : Nat}, position p l = some i →
      i < l.length ∧ p (l.getD i d) = true ∧ ∀ j, j < i → p (l.getD j d) = false := by
  intro l
  induction l with
  | nil => intro i h; simp [position] at h
  | cons a as ih =>
    intro i h
    by_cases hp : p a
    · rw [position, if_pos hp] at h
      have : i = 0 := by simpa using h.symm
      subst this
      exact ⟨by simp, by simpa using hp, fun j hj => absurd hj (by omega)⟩
    · rw [position, if_neg hp] at h
      rcases Option.map_eq_some'.1 h with ⟨i', hi', hieq⟩
      subst hieq
      obtain ⟨h1, h2, h3⟩ := ih hi'
      refine ⟨by simp; omega, by simpa using h2, ?_⟩
      intro j hj
      cases j with
      | zero => simpa using hp
      | succ j' => simpa using h3 j' (by omega)

theorem position_eq_some_of {A : Type} {p : A → Bool} (d : A) :
    ∀ {l : List A} {i : Nat}, i < l.length → p (l.getD i d) = true →
      (∀ j, j < i → p (l.getD j d) = false) → position p l = some i := by
  intro l
  induction l with
  | nil => intro i h; simp at h
  | cons a as ih =>
    intro i hlen hp hj
    cases i with
    | zero =>
      rw [position, if_pos (by simpa using hp)]
    | succ i' =>
      have hpa : p a = false := by simpa using hj 0 (by omega)
      rw [position, if_neg (by simp [hpa])]
      have := ih (i := i') (by simp at hlen; omega) (by simpa using hp)
        (fun j hjlt => by simpa using hj (j + 1) (by omega))
      rw [this]
      rfl

/-! ## scanDeps lemmas -/

theorem scanDeps_done_spec {result heads : List T} :
    ∀ {deps free free1 : List T}, scanDeps result heads free deps = .done free1 →
      (∃ rest, free1 = free ++ rest ∧
        ∀ x ∈ rest, x ∈ deps ∧ x ∉ result ∧ ∀ c ∈ heads, c ≠ x) ∧
      ∀ d ∈ deps, d ∈ result ∨ d ∈ free1 := by
  intro deps
  induction deps with
  | nil =>
    intro free free1 h
    rw [scanDeps] at h
    have : free = free1 := by simpa using h
    subst this
    exact ⟨⟨[], by simp⟩, by simp⟩
  | cons tgt rest ih =>
    intro free free1 h
    rw [scanDeps] at h
    by_cases hr : tgt ∈ result
    · rw [if_pos hr] at h
      obtain ⟨⟨r0, hr0, hr0p⟩, hcov⟩ := ih h
      refine ⟨⟨r0, hr0, fun x hx => ?_⟩, fun e he => ?_⟩
      · obtain ⟨h1, h2, h3⟩ := hr0p x hx
        exact ⟨List.mem_cons_of_mem _ h1, h2, h3⟩
      · rcases List.mem_cons.1 he with he1 | he1
        · subst he1; exact Or.inl hr
        · exact hcov e he1
    · rw [if_neg hr] at h
      rcases hpos : position (fun c => c == tgt) heads with _ | pos
      · rw [hpos] at h
        obtain ⟨⟨r0, hr0, hr0p⟩, hcov⟩ := ih h
        have hnh : ∀ c ∈ heads, c ≠ tgt := by
          intro c hc
          have := position_eq_none.1 hpos c hc
          simpa using this
        refine ⟨⟨tgt :: r0, by simpa using hr0, fun x hx => ?_⟩, fun e he => ?_⟩
        · rcases List.mem_cons.1 hx with hx1 | hx1
          · subst hx1; exact ⟨List.mem_cons_self _ _, hr, hnh⟩
          · obtain ⟨h1, h2, h3⟩ := hr0p x hx1
            exact ⟨List.mem_cons_of_mem _ h1, h2, h3⟩
        · rcases List.mem_cons.1 he with he1 | he1
          · subst he1
            right
            rw [hr0]
            simp
          · exact hcov e he1
      · rw [hpos] at h
        simp at h

theorem scanDeps_done_nil {result heads : List T} {deps free : List T}
    (h : scanDeps result heads free deps = .done []) :
    free = [] ∧ ∀ d ∈ deps, d ∈ result := by
  obtain ⟨⟨rest, hrest, -⟩, hcov⟩ := scanDeps_done_spec h
  have hfree : free = [] := by
    rcases List.append_eq_nil.1 hrest.symm with ⟨h1, -⟩
    exact h1
  refine ⟨hfree, fun d hd => ?_⟩
  rcases hcov d hd with h1 | h1
  · exact h1
  · simp at h1

theorem scanDeps_cycle_spec {result heads : List T} :
    ∀ {deps free : List T} {pos : Nat}, scanDeps result heads free deps = .cycle pos →
      ∃ pre d post, deps = pre ++ d :: post ∧
        (∀ p' ∈ pre, p' ∈ result ∨ ∀ c ∈ heads, c ≠ p') ∧
        d ∉ result ∧ position (fun c => c == d) heads = some pos := by
  intro deps
  induction deps with
  | nil =>
    intro free pos h
    rw [scanDeps] at h
    simp at h
  | cons tgt rest ih =>
    intro free pos h
    rw [scanDeps] at h
    by_cases hr : tgt ∈ result
    · rw [if_pos hr] at h
      obtain ⟨pre, d, post, heq, hpre, hd, hpos⟩ := ih h
      exact ⟨tgt :: pre, d, post, by simp [heq], by
        intro p' hp'
        rcases List.mem_cons.1 hp' with h1 | h1
        · subst h1; exact Or.inl hr
        · exact hpre p' h1, hd, hpos⟩
    · rw [if_neg hr] at h
      rcases hpos : position (fun c => c == tgt) heads with _ | pos'
      · rw [hpos] at h
        obtain ⟨pre, d, post, heq, hpre, hd, hpos'⟩ := ih h
        exact ⟨tgt :: pre, d, post, by simp [heq], by
          intro p' hp'
          rcases List.mem_cons.1 hp' with h1 | h1
          · subst h1
            right
            intro c hc
            have := position_eq_none.1 hpos c hc
            simpa using this
          · exact hpre p' h1, hd, hpos'⟩
      · rw [hpos] at h
        simp at h
        subst h
        exact ⟨[], tgt, rest, rfl, by simp, hr, hpos⟩

theorem scanDeps_cycle_of {result heads : List T} (pre : List T) :
    ∀ (free : List T) {d : T} {post : List T} {pos : Nat},
      (∀ p' ∈ pre, p' ∈ result ∨ ∀ c ∈ heads, c ≠ p') → d ∉ result →
      position (fun c => c == d) heads = some pos →
      scanDeps result heads free (pre ++ d :: post) = .cycle pos := by
  induction pre with
  | nil =>
    intro free d post pos _ hd hpos
    rw [List.nil_append, scanDeps, if_neg hd, hpos]
  | cons p' pre' ih =>
    intro free d post pos hpre hd hpos
    rw [List.cons_append, scanDeps]
    by_cases hr : p' ∈ result
    · rw [if_pos hr]
      exact ih free (fun q hq => hpre q (List.mem_cons_of_mem _ hq)) hd hpos
    · rw [if_neg hr]
      have hnone : position (fun c => c == p') heads = none := by
        rw [position_eq_none]
        intro c hc
        rcases hpre p' (List.mem_cons_self _ _) with h1 | h1
        · exact absurd h1 hr
        · simpa using h1 c hc
      rw [hnone]
      exact ih _ (fun q hq => hpre q (List.mem_cons_of_mem _ hq)) hd hpos

/-! ## get_free lemmas -/

theorem get_free_used (st : DepMap T) : st.get_free.2.used = st.used := by
  rw [DepMap.get_free]
  by_cases h : st.used < st.list.length <;> simp [h]

theorem get_free_result (st : DepMap T) : st.get_free.2.result = st.result := by
  rw [DepMap.get_free]
  by_cases h : st.used < st.list.length <;> simp [h]

theorem get_free_layer_lt (st : DepMap T) {k : Nat} (hk : k < st.used) :
    st.get_free.2.layer k = st.layer k := by
  rw [DepMap.get_free]
  by_cases h : st.used < st.list.length
  · simp only [if_pos h]
    show st.list.dropLast.getD k [] = st.list.getD k []
    exact getD_dropLast (by omega)
  · simp [h]

theorem get_free_layer (st : DepMap T) (hfe : freeEmpty st) (k : Nat) :
    st.get_free.2.layer k = st.layer k := by
  rcases Nat.lt_or_ge k st.used with hk | hk
  · exact get_free_layer_lt st hk
  · rw [DepMap.get_free]
    by_cases h : st.used < st.list.length
    · simp only [if_pos h]
      show st.list.dropLast.getD k [] = st.list.getD k []
      rcases Nat.lt_or_ge k (st.list.length - 1) with hk2 | hk2
      · exact getD_dropLast hk2
      · rw [getD_of_le (by rw [List.length_dropLast]; omega)]
        rcases Nat.lt_or_ge k st.list.length with hk3 | hk3
        · exact (hfe k hk3 hk).symm
        · exact (getD_of_le hk3).symm
    · simp [h]

theorem get_free_frontier (st : DepMap T) (h : st.used ≠ 0) :
    st.get_free.2.frontier = st.frontier := by
  show (st.get_free.2.layer (st.get_free.2.used - 1)).headI = (st.layer (st.used - 1)).headI
  rw [get_free_used, get_free_layer_lt st (by omega)]

theorem get_free_heads (st : DepMap T) : st.get_free.2.heads = st.heads := by
  rw [DepMap.get_free]
  by_cases h : st.used < st.list.length
  · simp only [if_pos h]
    show (st.list.dropLast.take st.used).map List.headI = (st.list.take st.used).map List.headI
    rw [List.dropLast_eq_take, List.take_take, Nat.min_eq_left (by omega)]
  · simp [h]

theorem get_free_fst (st : DepMap T) (hfe : freeEmpty st) : st.get_free.1 = [] := by
  rw [DepMap.get_free]
  by_cases h : st.used < st.list.length
  · simp only [if_pos h]
    have hlen : st.list.length - 1 < st.list.length := by omega
    have : st.list.getLast? = some (st.list.getD (st.list.length - 1) []) := by
      rw [List.getLast?_eq_getElem?, List.getElem?_eq_getElem hlen]
      simp [List.getD, List.getElem?_eq_getElem hlen]
    rw [this]
    simp only [Option.getD_some]
    exact hfe _ hlen (by omega)
  · simp [h]

theorem get_free_length (st : DepMap T) (h : StInv st) :
    st.get_free.2.used ≤ st.get_free.2.list.length := by
  rw [DepMap.get_free]
  by_cases hc : st.used < st.list.length
  · simp only [if_pos hc]
    show st.used ≤ st.list.dropLast.length
    rw [List.length_dropLast]
    omega
  · simp only [if_neg hc]
    exact h.1

theorem get_free_StInv (st : DepMap T) (h : StInv st) : StInv st.get_free.2 := by
  obtain ⟨h1, h2, h3, h4, h5, h6⟩ := h
  refine ⟨get_free_length st ⟨h1, h2, h3, h4, h5, h6⟩, ?_, ?_, ?_, ?_, ?_⟩
  · intro k hk hge
    rw [get_free_layer st h2]
    rw [get_free_used] at hge
    rcases Nat.lt_or_ge k st.list.length with hk2 | hk2
    · exact h2 k hk2 hge
    · exact getD_of_le hk2
  · intro k hk
    rw [get_free_used] at hk
    rw [get_free_layer st h2]
    exact h3 k hk
  · intro k hk j hj x hx
    rw [get_free_used] at hk
    rw [get_free_layer st h2] at hx ⊢
    exact h4 k hk j hj x hx
  · intro k hk
    rw [get_free_used] at hk
    rw [get_free_layer st h2, get_free_result]
    exact h5 k hk
  · rw [get_free_result]
    exact h6

/-! ## add branch computation lemmas -/

theorem add_eq_empty (g : T → Except E (List T)) {st : DepMap T} (h : st.used = 0) :
    st.add g = .ok (st, none) := by
  rw [DepMap.add, if_pos h]

theorem add_eq_err (g : T → Except E (List T)) {st : DepMap T} {e : E} (h : st.used ≠ 0)
    (he : g st.get_free.2.frontier = .error e) : st.add g = .error e := by
  rw [DepMap.add, if_neg h]
  simp only [he]

theorem add_eq_cycle (g : T → Except E (List T)) {st : DepMap T} {deps : List T} {pos : Nat}
    (h : st.used ≠ 0) (hdeps : g st.get_free.2.frontier = .ok deps)
    (hscan : scanDeps st.get_free.2.result st.get_free.2.heads st.get_free.1 deps =
      .cycle pos) :
    st.add g = .ok ({ st.get_free.2 with list := st.get_free.2.list ++ [[]] },
      some (((st.get_free.2.list.take st.get_free.2.used).drop pos).map List.headI)) := by
  rw [DepMap.add, if_neg h]
  simp only [hdeps, hscan]

theorem add_eq_done_nil (g : T → Except E (List T)) {st : DepMap T} {deps : List T}
    (h : st.used ≠ 0) (hdeps : g st.get_free.2.frontier = .ok deps)
    (hscan : scanDeps st.get_free.2.result st.get_free.2.heads st.get_free.1 deps =
      .done []) :
    st.add g = .ok (st.get_free.2.drop_cur, none) := by
  rw [DepMap.add, if_neg h]
  simp only [hdeps, hscan]
  simp

theorem add_eq_done_push (g : T → Except E (List T)) {st : DepMap T} {deps free1 : List T}
    (h : st.used ≠ 0) (hdeps : g st.get_free.2.frontier = .ok deps)
    (hscan : scanDeps st.get_free.2.result st.get_free.2.heads st.get_free.1 deps =
      .done free1) (hne : free1 ≠ []) :
    st.add g = .ok ({ st.get_free.2 with
      list := listSwap (st.get_free.2.list ++ [free1]) st.get_free.2.list.length st.get_free.2.used,
      used := st.get_free.2.used + 1 }, none) := by
  rw [DepMap.add, if_neg h]
  simp only [hdeps, hscan, if_neg hne]

/-! ## listSwap lemmas -/

theorem getD_eq_getElem {A : Type} {l : List A} {i : Nat} {d : A} (h : i < l.length) :
    l.getD i d = l[i] := by
  simp [List.getD, List.get?_eq_getElem?, List.getElem?_eq_getElem h]

theorem listSwap_length {A : Type} (l : List A) (i j : Nat) :
    (listSwap l i j).length = l.length := by
  rw [listSwap]
  rcases h1 : l[i]? with _ | a <;> rcases h2 : l[j]? with _ | b <;> simp

theorem listSwap_getD {A : Type} {l : List A} {i j : Nat} (hi : i < l.length)
    (hj : j < l.length) (k : Nat) (d : A) :
    (listSwap l i j).getD k d =
      if k = j then l.getD i d else if k = i then l.getD j d else l.getD k d := by
  rw [listSwap, List.getElem?_eq_getElem hi, List.getElem?_eq_getElem hj]
  by_cases hkj : k = j
  · subst hkj
    rw [if_pos rfl, getD_set_self (by simpa using hj), getD_eq_getElem hi]
  · rw [if_neg hkj, getD_set_ne (fun hc => hkj hc.symm)]
    by_cases hki : k = i
    · subst hki
      rw [if_pos rfl, getD_set_self hi, getD_eq_getElem hj]
    · rw [if_neg hki, getD_set_ne (fun hc => hki hc.symm)]

/-! ## The layer structure after the descend branch of add -/

theorem pushLayer_layer (stm : DepMap T) (free1 : List T)
    (hu : stm.used ≤ stm.list.length) (k : Nat) :
    (listSwap (stm.list ++ [free1]) stm.list.length stm.used).getD k [] =
      if k = stm.used then free1
      else if k = stm.list.length then stm.layer stm.used
      else stm.layer k := by
  have hi : stm.list.length < (stm.list ++ [free1]).length := by simp
  have hj : stm.used < (stm.list ++ [free1]).length := by simp; omega
  rw [listSwap_getD hi hj k []]
  by_cases hku : k = stm.used
  · subst hku
    rw [if_pos rfl, if_pos rfl, getD_append_right (by omega)]
    simp
  · rw [if_neg hku, if_neg hku]
    by_cases hkL : k = stm.list.length
    · subst hkL
      rw [if_pos rfl, if_pos rfl]
      rcases Nat.lt_or_ge stm.used stm.list.length with h1 | h1
      · exact getD_append h1
      · have : stm.used = stm.list.length := by omega
        exact absurd this.symm hku
    · rw [if_neg hkL, if_neg hkL]
      rcases Nat.lt_or_ge k stm.list.length with h1 | h1
      · exact getD_append h1
      · rw [getD_append_right h1]
        have hk1 : stm.list.length < k := by omega
        show [free1].getD (k - stm.list.length) [] = stm.list.getD k []
        rw [getD_of_le (l := [free1]) (by simp; omega), getD_of_le (by omega)]

/-! ## The finalization cascade -/

theorem nodup_append_singleton {A : Type} {l : List A} {a : A} (h : l.Nodup)
    (ha : a ∉ l) : (l ++ [a]).Nodup := by
  rw [List.nodup_append]
  refine ⟨h, List.nodup_singleton a, ?_⟩
  intro x hx hxa
  have : x = a := by simpa using hxa
  subst this
  exact ha hx

theorem dropCurAux_succ (list : List (List T)) (result : List T) (u : Nat) :
    dropCurAux list result (u + 1) =
      if dropScan (result ++ [(list.getD u []).headI]) (swapRemove0 (list.getD u [])) = []
      then dropCurAux
        (list.set u (dropScan (result ++ [(list.getD u []).headI])
          (swapRemove0 (list.getD u []))))
        (result ++ [(list.getD u []).headI]) u
      else (list.set u (dropScan (result ++ [(list.getD u []).headI])
          (swapRemove0 (list.getD u []))),
        result ++ [(list.getD u []).headI], u + 1) := rfl

theorem dropCurAux_spec :
    ∀ (u : Nat) (list : List (List T)) (result : List T),
      u ≤ list.length →
      (∀ k, k < u → list.getD k [] ≠ []) →
      (∀ k, k < u → ∀ j, j < k → ∀ x ∈ list.getD k [], x ≠ (list.getD j []).headI) →
      (∀ k, k < u → (list.getD k []).headI ∉ result) →
      result.Nodup →
      DropCurOut list (dropCurAux list result u).1 result (dropCurAux list result u).2.1
        u (dropCurAux list result u).2.2 := by
  intro u
  induction u with
  | zero =>
    intro list result hlen hne hmnh hhnd hnodup
    show DropCurOut list list result result 0 0
    exact {
      len_eq := rfl
      used_le := le_rfl
      lower := fun k hk => absurd hk (by omega)
      upper := fun k _ => rfl
      cleared := fun k h1 h2 => absurd (Nat.lt_of_le_of_lt h1 h2) (Nat.lt_irrefl _)
      last_sub := fun x hx => hx
      last_ne := fun h => absurd rfl h
      last_head := fun h => absurd rfl h
      res_ext := ⟨[], by simp, fun h => absurd rfl h, by simp⟩
      res_nodup := hnodup
      mem_cover := fun k hk => absurd hk (by omega)
      heads_pushed := fun m hm1 hm2 => absurd hm2 (by omega) }
  | succ u ih =>
    intro list result hlen hne hmnh hhnd hnodup
    have hu : u < list.length := by omega
    have hlne : list.getD u [] ≠ [] := hne u (by omega)
    have hh_mem : (list.getD u []).headI ∈ list.getD u [] := headI_mem hlne
    have hhd : (list.getD u []).headI ∉ result := hhnd u (by omega)
    have hnd1 : (result ++ [(list.getD u []).headI]).Nodup :=
      nodup_append_singleton hnodup hhd
    by_cases hl1 : dropScan (result ++ [(list.getD u []).headI])
        (swapRemove0 (list.getD u [])) = []
    · -- the layer emptied: free it and continue one level up
      rw [dropCurAux_succ, if_pos hl1]
      have hlen1 : u ≤ (list.set u (dropScan (result ++ [(list.getD u []).headI])
          (swapRemove0 (list.getD u [])))).length := by
        simp; omega
      have hne1 : ∀ k, k < u → (list.set u (dropScan (result ++ [(list.getD u []).headI])
          (swapRemove0 (list.getD u [])))).getD k [] ≠ [] := by
        intro k hk
        rw [getD_set_ne (by omega)]
        exact hne k (by omega)
      have hmnh1 : ∀ k, k < u → ∀ j, j < k →
          ∀ x ∈ (list.set u (dropScan (result ++ [(list.getD u []).headI])
            (swapRemove0 (list.getD u [])))).getD k [],
          x ≠ ((list.set u (dropScan (result ++ [(list.getD u []).headI])
            (swapRemove0 (list.getD u [])))).getD j []).headI := by
        intro k hk j hj x hx
        rw [getD_set_ne (by omega)] at hx
        rw [getD_set_ne (by omega)]
        exact hmnh k (by omega) j hj x hx
      have hhnd1 : ∀ k, k < u →
          ((list.set u (dropScan (result ++ [(list.getD u []).headI])
            (swapRemove0 (list.getD u [])))).getD k []).headI ∉
            result ++ [(list.getD u []).headI] := by
        intro k hk
        rw [getD_set_ne (by omega)]
        intro hc
        rcases List.mem_append.1 hc with hc1 | hc1
        · exact hhnd k (by omega) hc1
        · have h2 : (list.getD k []).headI = (list.getD u []).headI := by simpa using hc1
          exact hmnh u (by omega) k hk _ hh_mem h2.symm
      have IH := ih _ _ hlen1 hne1 hmnh1 hhnd1 hnd1
      refine {
        len_eq := by rw [IH.len_eq]; simp
        used_le := Nat.le_trans IH.used_le (by omega)
        lower := ?_
        upper := ?_
        cleared := ?_
        last_sub := ?_
        last_ne := IH.last_ne
        last_head := IH.last_head
        res_ext := ?_
        res_nodup := IH.res_nodup
        mem_cover := ?_
        heads_pushed := ?_ }
      · intro k hk
        rw [IH.lower k hk, getD_set_ne (by have := IH.used_le; omega)]
      · intro k hk
        rw [IH.upper k (by omega), getD_set_ne (by omega)]
      · intro k h1 h2
        rcases Nat.lt_or_ge k u with hk | hk
        · exact IH.cleared k h1 hk
        · have hk2 : k = u := by omega
          subst hk2
          rw [IH.upper k le_rfl, getD_set_self hu]
          exact hl1
      · intro x hx
        have hx1 := IH.last_sub x hx
        by_cases huu : (dropCurAux (list.set u (dropScan (result ++
            [(list.getD u []).headI]) (swapRemove0 (list.getD u []))))
            (result ++ [(list.getD u []).headI]) u).2.2 - 1 = u
        · rw [huu, getD_set_self hu, hl1] at hx1
          simp at hx1
        · rwa [getD_set_ne (fun hc => huu hc.symm)] at hx1
      · obtain ⟨news, hnews, -, hnewsmem⟩ := IH.res_ext
        refine ⟨(list.getD u []).headI :: news, by rw [hnews]; simp,
          fun _ => by simp, ?_⟩
        intro x hx
        rcases List.mem_cons.1 hx with hx1 | hx1
        · subst hx1
          exact ⟨u, by have := IH.used_le; omega, by omega, hh_mem⟩
        · obtain ⟨m, hm1, hm2, hm3⟩ := hnewsmem x hx1
          refine ⟨m, hm1, by omega, ?_⟩
          rwa [getD_set_ne (by omega)] at hm3
      · intro k hk x hx
        obtain ⟨news, hnews, -, -⟩ := IH.res_ext
        have hsub : ∀ y, y ∈ result ++ [(list.getD u []).headI] →
            y ∈ (dropCurAux (list.set u (dropScan (result ++
              [(list.getD u []).headI]) (swapRemove0 (list.getD u []))))
              (result ++ [(list.getD u []).headI]) u).2.1 := by
          intro y hy
          rw [hnews]
          exact List.mem_append_left _ hy
        rcases Nat.lt_or_ge k u with hku | hku
        · have hx1 : x ∈ (list.set u (dropScan (result ++ [(list.getD u []).headI])
              (swapRemove0 (list.getD u [])))).getD k [] := by
            rwa [getD_set_ne (by omega)]
          exact IH.mem_cover k hku x hx1
        · have hk2 : k = u := by omega
          rw [hk2] at hx
          rcases mem_headI_or_swapRemove0 hlne hx with hx1 | hx1
          · left
            exact hsub x (by rw [hx1]; simp)
          · rcases dropScan_cover (r := result ++ [(list.getD u []).headI]) hx1
              with hx2 | hx2
            · rw [hl1] at hx2
              simp at hx2
            · left
              exact hsub x hx2
      · intro m hm1 hm2
        rcases Nat.lt_or_ge m u with hmu | hmu
        · have hmf := IH.heads_pushed m hm1 (by omega)
          rwa [getD_set_ne (by omega)] at hmf
        · have hm3 : m = u := by omega
          rw [hm3]
          obtain ⟨news, hnews, -, -⟩ := IH.res_ext
          rw [hnews]
          exact List.mem_append_left _ (by simp)
    · -- a next sibling was found: the cascade stops at this depth
      rw [dropCurAux_succ, if_neg hl1]
      show DropCurOut list
        (list.set u (dropScan (result ++ [(list.getD u []).headI])
          (swapRemove0 (list.getD u []))))
        result (result ++ [(list.getD u []).headI]) (u + 1) (u + 1)
      refine {
        len_eq := by simp
        used_le := le_rfl
        lower := ?_
        upper := ?_
        cleared := fun k h1 h2 => absurd (Nat.lt_of_le_of_lt h1 h2) (Nat.lt_irrefl _)
        last_sub := ?_
        last_ne := ?_
        last_head := ?_
        res_ext := ?_
        res_nodup := hnd1
        mem_cover := ?_
        heads_pushed := ?_ }
      · intro k hk
        exact getD_set_ne (by omega)
      · intro k hk
        exact getD_set_ne (by omega)
      · intro x hx
        simp only [Nat.add_sub_cancel] at hx ⊢
        rw [getD_set_self hu] at hx
        exact mem_swapRemove0 (dropScan_subset hx)
      · intro _
        simp only [Nat.add_sub_cancel]
        rw [getD_set_self hu]
        exact hl1
      · intro _
        simp only [Nat.add_sub_cancel]
        rw [getD_set_self hu]
        exact dropScan_head hl1
      · refine ⟨[(list.getD u []).headI], rfl, fun _ => by simp, ?_⟩
        intro x hx
        have hx1 : x = (list.getD u []).headI := by simpa using hx
        subst hx1
        exact ⟨u, by omega, by omega, hh_mem⟩
      · intro k hk x hx
        rcases Nat.lt_or_ge k u with hku | hku
        · right
          refine ⟨by omega, ?_⟩
          rwa [getD_set_ne (by omega)]
        · have hk2 : k = u := by omega
          rw [hk2] at hx
          rcases mem_headI_or_swapRemove0 hlne hx with hx1 | hx1
          · left
            rw [hx1]
            simp
          · rcases dropScan_cover (r := result ++ [(list.getD u []).headI]) hx1
              with hx2 | hx2
            · right
              refine ⟨by omega, ?_⟩
              rw [hk2, getD_set_self hu]
              exact hx2
            · left
              exact hx2
      · intro m hm1 hm2
        have hm3 : m = u := by omega
        rw [hm3]
        simp

/-- The producer-dependent effect of the finalization cascade: if every
finalized item already has all its dependencies finalized strictly before
it, each non-frontier active item's dependencies are finalized or queued
directly below it, and the entry layer's own head has all dependencies
finalized, then after the cascade the same two facts hold again. -/
theorem dropCurAux_topo (g : T → Except E (List T)) :
    ∀ (u : Nat) (list : List (List T)) (result : List T),
      u ≤ list.length →
      (∀ k, k < u → list.getD k [] ≠ []) →
      (∀ k, k < u → ∀ j, j < k → ∀ x ∈ list.getD k [], x ≠ (list.getD j []).headI) →
      (∀ k, k < u → (list.getD k []).headI ∉ result) →
      result.Nodup →
      (∀ x ∈ result, ∃ l, g x = .ok l ∧ ∀ d ∈ l, Before result d x) →
      (∀ k, k + 1 < u → ∃ l, g ((list.getD k []).headI) = .ok l ∧
        (∀ d ∈ l, d ∈ result ∨ d ∈ list.getD (k + 1) []) ∧
        (∀ x ∈ list.getD (k + 1) [], x ∈ l)) →
      (u ≠ 0 → ∃ l, g ((list.getD (u - 1) []).headI) = .ok l ∧ ∀ d ∈ l, d ∈ result) →
      (∀ x ∈ (dropCurAux list result u).2.1, ∃ l, g x = .ok l ∧
        ∀ d ∈ l, Before (dropCurAux list result u).2.1 d x) ∧
      (∀ k, k + 1 < (dropCurAux list result u).2.2 →
        ∃ l, g (((dropCurAux list result u).1.getD k []).headI) = .ok l ∧
          (∀ d ∈ l, d ∈ (dropCurAux list result u).2.1 ∨
            d ∈ (dropCurAux list result u).1.getD (k + 1) []) ∧
          (∀ x ∈ (dropCurAux list result u).1.getD (k + 1) [], x ∈ l)) := by
  intro u
  induction u with
  | zero =>
    intro list result hlen hne hmnh hhnd hnodup htopo hpd hent
    exact ⟨htopo, fun k hk => absurd (show k + 1 < 0 from hk) (by omega)⟩
  | succ u ih =>
    intro list result hlen hne hmnh hhnd hnodup htopo hpd hent
    have hu : u < list.length := by omega
    have hlne : list.getD u [] ≠ [] := hne u (by omega)
    have hh_mem : (list.getD u []).headI ∈ list.getD u [] := headI_mem hlne
    have hhd : (list.getD u []).headI ∉ result := hhnd u (by omega)
    have hnd1 : (result ++ [(list.getD u []).headI]).Nodup :=
      nodup_append_singleton hnodup hhd
    obtain ⟨dl, hdl, hdlsub⟩ := hent (by omega)
    simp only [Nat.add_sub_cancel] at hdl hdlsub
    have htopo1 : ∀ x ∈ result ++ [(list.getD u []).headI],
        ∃ l, g x = .ok l ∧ ∀ d ∈ l, Before (result ++ [(list.getD u []).headI]) d x := by
      intro x hx
      rcases List.mem_append.1 hx with hx1 | hx1
      · obtain ⟨l, hl1, hl2⟩ := htopo x hx1
        exact ⟨l, hl1, fun d hd => before_append (hl2 d hd)⟩
      · have hx2 : x = (list.getD u []).headI := by simpa using hx1
        subst hx2
        exact ⟨dl, hdl, fun d hd => before_extend (hdlsub d hd) hhd⟩
    by_cases hl1 : dropScan (result ++ [(list.getD u []).headI])
        (swapRemove0 (list.getD u [])) = []
    · -- the layer emptied: continue one level up
      rw [dropCurAux_succ, if_pos hl1]
      have hne1 : ∀ k, k < u → (list.set u (dropScan (result ++ [(list.getD u []).headI])
          (swapRemove0 (list.getD u [])))).getD k [] ≠ [] := by
        intro k hk
        rw [getD_set_ne (by omega)]
        exact hne k (by omega)
      have hmnh1 : ∀ k, k < u → ∀ j, j < k →
          ∀ x ∈ (list.set u (dropScan (result ++ [(list.getD u []).headI])
            (swapRemove0 (list.getD u [])))).getD k [],
          x ≠ ((list.set u (dropScan (result ++ [(list.getD u []).headI])
            (swapRemove0 (list.getD u [])))).getD j []).headI := by
        intro k hk j hj x hx
        rw [getD_set_ne (by omega)] at hx
        rw [getD_set_ne (by omega)]
        exact hmnh k (by omega) j hj x hx
      have hhnd1 : ∀ k, k < u →
          ((list.set u (dropScan (result ++ [(list.getD u []).headI])
            (swapRemove0 (list.getD u [])))).getD k []).headI ∉
            result ++ [(list.getD u []).headI] := by
        intro k hk
        rw [getD_set_ne (by omega)]
        intro hc
        rcases List.mem_append.1 hc with hc1 | hc1
        · exact hhnd k (by omega) hc1
        · have h2 : (list.getD k []).headI = (list.getD u []).headI := by simpa using hc1
          exact hmnh u (by omega) k hk _ hh_mem h2.symm
      have hmemcov : ∀ x ∈ list.getD u [], x ∈ result ++ [(list.getD u []).headI] := by
        intro x hx
        rcases mem_headI_or_swapRemove0 hlne hx with hx1 | hx1
        · rw [hx1]
          simp
        · rcases dropScan_cover (r := result ++ [(list.getD u []).headI]) hx1
            with hx2 | hx2
          · rw [hl1] at hx2
            simp at hx2
          · exact hx2
      have hpd1 : ∀ k, k + 1 < u →
          ∃ l, g (((list.set u (dropScan (result ++ [(list.getD u []).headI])
            (swapRemove0 (list.getD u [])))).getD k []).headI) = .ok l ∧
          (∀ d ∈ l, d ∈ result ++ [(list.getD u []).headI] ∨
            d ∈ (list.set u (dropScan (result ++ [(list.getD u []).headI])
              (swapRemove0 (list.getD u [])))).getD (k + 1) []) ∧
          (∀ x ∈ (list.set u (dropScan (result ++ [(list.getD u []).headI])
            (swapRemove0 (list.getD u [])))).getD (k + 1) [], x ∈ l) := by
        intro k hk
        rw [getD_set_ne (by omega), getD_set_ne (by omega)]
        obtain ⟨l, hlok, hlsub, hlmem⟩ := hpd k (by omega)
        exact ⟨l, hlok, fun d hd => (hlsub d hd).imp (List.mem_append_left _) id, hlmem⟩
      have hent1 : u ≠ 0 →
          ∃ l, g (((list.set u (dropScan (result ++ [(list.getD u []).headI])
            (swapRemove0 (list.getD u [])))).getD (u - 1) []).headI) = .ok l ∧
          ∀ d ∈ l, d ∈ result ++ [(list.getD u []).headI] := by
        intro hu0
        rw [getD_set_ne (by omega)]
        obtain ⟨l, hlok, hlsub, -⟩ := hpd (u - 1) (by omega)
        rw [show u - 1 + 1 = u from by omega] at hlsub
        refine ⟨l, hlok, fun d hd => ?_⟩
        rcases hlsub d hd with h1 | h1
        · exact List.mem_append_left _ h1
        · exact hmemcov d h1
      exact ih _ _ (by simp; omega) hne1 hmnh1 hhnd1 hnd1 htopo1 hpd1 hent1
    · -- stop at this depth
      rw [dropCurAux_succ, if_neg hl1]
      refine ⟨htopo1, ?_⟩
      intro k hk
      have hk2 : k + 1 < u + 1 := hk
      by_cases hku : k + 1 = u
      · rw [getD_set_ne (by omega)]
        rw [hku, getD_set_self hu]
        obtain ⟨l, hlok, hlsub, hlmem⟩ := hpd k (by omega)
        rw [hku] at hlsub hlmem
        refine ⟨l, hlok, fun d hd => ?_, fun x hx =>
          hlmem x (mem_swapRemove0 (dropScan_subset hx))⟩
        rcases hlsub d hd with h1 | h1
        · exact Or.inl (List.mem_append_left _ h1)
        · rcases mem_headI_or_swapRemove0 hlne h1 with h2 | h2
          · left
            rw [h2]
            simp
          · rcases dropScan_cover (r := result ++ [(list.getD u []).headI]) h2
              with h3 | h3
            · exact Or.inr h3
            · exact Or.inl h3
      · rw [getD_set_ne (by omega), getD_set_ne (by omega)]
        obtain ⟨l, hlok, hlsub, hlmem⟩ := hpd k (by omega)
        exact ⟨l, hlok, fun d hd => (hlsub d hd).imp (List.mem_append_left _) id, hlmem⟩

/-! ## Heads list lemmas -/

theorem heads_length {st : DepMap T} (hlen : st.used ≤ st.list.length) :
    st.heads.length = st.used := by
  show ((st.list.take st.used).map List.headI).length = st.used
  rw [List.length_map, List.length_take]
  omega

theorem heads_getD_eq {st : DepMap T} (hlen : st.used ≤ st.list.length) {j : Nat}
    (hj : j < st.used) (d : T) : st.heads.getD j d = (st.layer j).headI := by
  have hjh : j < st.heads.length := by rw [heads_length hlen]; exact hj
  have hjm : j < ((st.list.take st.used).map List.headI).length := hjh
  have hjl : j < st.list.length := by omega
  rw [getD_eq_getElem hjh]
  show ((st.list.take st.used).map List.headI)[j] = _
  rw [List.getElem_map, List.getElem_take]
  show (st.list[j]).headI = (st.list.getD j []).headI
  rw [getD_eq_getElem hjl]

theorem heads_mem {st : DepMap T} (hlen : st.used ≤ st.list.length) {j : Nat}
    (hj : j < st.used) : (st.layer j).headI ∈ st.heads := by
  have := heads_getD_eq hlen hj (st.layer j).headI
  rw [← this]
  exact getD_mem (by rw [heads_length hlen]; exact hj)

theorem heads_exists {st : DepMap T} {c : T} (hc : c ∈ st.heads) :
    ∃ j, j < st.used ∧ j < st.list.length ∧ c = (st.layer j).headI := by
  obtain ⟨l, hl, hlc⟩ := List.mem_map.1 hc
  obtain ⟨j, hj, hjl⟩ := List.getElem_of_mem hl
  rw [List.length_take] at hj
  rw [List.getElem_take] at hjl
  refine ⟨j, by omega, by omega, ?_⟩
  rw [← hlc, ← hjl]
  have hb : j < st.list.length := by omega
  show (st.list[j]).headI = (st.list.getD j []).headI
  rw [getD_eq_getElem hb]

/-! ## Structural invariant preservation: drop_cur -/

theorem drop_cur_out {st : DepMap T} (h : StInv st) :
    DropCurOut st.list st.drop_cur.list st.result st.drop_cur.result
      st.used st.drop_cur.used := by
  obtain ⟨h1, h2, h3, h4, h5, h6⟩ := h
  exact dropCurAux_spec st.used st.list st.result h1 h3 h4 h5 h6

theorem drop_cur_StInv {st : DepMap T} (h : StInv st) : StInv st.drop_cur := by
  have O := drop_cur_out h
  obtain ⟨h1, h2, h3, h4, h5, h6⟩ := h
  refine ⟨?_, ?_, ?_, ?_, ?_, O.res_nodup⟩
  · rw [O.len_eq]
    exact Nat.le_trans O.used_le h1
  · intro k hk hge
    rw [O.len_eq] at hk
    rcases Nat.lt_or_ge k st.used with hku | hku
    · exact O.cleared k hge hku
    · show st.drop_cur.list.getD k [] = []
      rw [O.upper k hku]
      exact h2 k hk hku
  · intro k hk
    by_cases hk1 : k + 1 < st.drop_cur.used
    · show st.drop_cur.list.getD k [] ≠ []
      rw [O.lower k hk1]
      exact h3 k (by have := O.used_le; omega)
    · have hke : k = st.drop_cur.used - 1 := by omega
      rw [hke]
      exact O.last_ne (by omega)
  · intro k hk j hj x hx
    have hjl : st.drop_cur.layer j = st.layer j := O.lower j (by omega)
    rw [hjl]
    by_cases hk1 : k + 1 < st.drop_cur.used
    · have hkl : st.drop_cur.layer k = st.layer k := O.lower k hk1
      rw [hkl] at hx
      exact h4 k (by have := O.used_le; omega) j hj x hx
    · have hke : k = st.drop_cur.used - 1 := by omega
      rw [hke] at hx
      have hx1 := O.last_sub x hx
      rw [← hke] at hx1
      exact h4 k (by have := O.used_le; omega) j hj x hx1
  · intro k hk
    by_cases hk1 : k + 1 < st.drop_cur.used
    · have hkl : st.drop_cur.layer k = st.layer k := O.lower k hk1
      rw [hkl]
      obtain ⟨news, hnews, -, hmem⟩ := O.res_ext
      rw [hnews]
      intro hc
      rcases List.mem_append.1 hc with hc1 | hc1
      · exact h5 k (by have := O.used_le; omega) hc1
      · obtain ⟨m, hm1, hm2, hm3⟩ := hmem _ hc1
        exact h4 m hm2 k (by omega) _ hm3 rfl
    · have hke : k = st.drop_cur.used - 1 := by omega
      rw [hke]
      exact O.last_head (by omega)

/-! ## Structural invariant preservation: add -/

theorem StInv_append_empty {stm : DepMap T} (h : StInv stm) :
    StInv (DepMap.mk (stm.list ++ [[]]) stm.result stm.used) := by
  obtain ⟨m1, m2, m3, m4, m5, m6⟩ := h
  refine ⟨by simp; omega, ?_, ?_, ?_, ?_, m6⟩
  · intro k hk hge
    have hge2 : stm.used ≤ k := hge
    show (stm.list ++ [[]]).getD k [] = []
    rcases Nat.lt_or_ge k stm.list.length with hkl | hkl
    · rw [getD_append hkl]
      exact m2 k hkl hge2
    · rw [getD_append_right hkl]
      rcases Nat.lt_or_ge (k - stm.list.length) 1 with hc | hc
    
      · have hc0 : k - stm.list.length = 0 := by omega
        rw [hc0]
        rfl
      · exact getD_of_le (by simpa using hc)
  · intro k hk
    have hk2 : k < stm.used := hk
    show (stm.list ++ [[]]).getD k [] ≠ []
    rw [getD_append (by omega)]
    exact m3 k hk2
  · intro k hk j hj x hx
    have hk2 : k < stm.used := hk
    show x ≠ ((stm.list ++ [[]]).getD j []).headI
    have hxk : x ∈ (stm.list ++ [[]]).getD k [] := hx
    rw [getD_append (by omega)] at hxk
    rw [getD_append (by omega)]
    exact m4 k hk2 j hj x hxk
  · intro k hk
    have hk2 : k < stm.used := hk
    show ((stm.list ++ [[]]).getD k []).headI ∉ stm.result
    rw [getD_append (by omega)]
    exact m5 k hk2

theorem StInv_push {stm : DepMap T} (h : StInv stm) {free1 : List T} (hfe : free1 ≠ [])
    (hmem : ∀ x ∈ free1, x ∉ stm.result ∧ ∀ c ∈ stm.heads, c ≠ x) :
    StInv (DepMap.mk (listSwap (stm.list ++ [free1]) stm.list.length stm.used)
      stm.result (stm.used + 1)) := by
  obtain ⟨m1, m2, m3, m4, m5, m6⟩ := h
  have hlay := pushLayer_layer stm free1 m1
  have hlen' : (listSwap (stm.list ++ [free1]) stm.list.length stm.used).length =
      stm.list.length + 1 := by
    rw [listSwap_length]
    simp
  refine ⟨?_, ?_, ?_, ?_, ?_, m6⟩
  · show stm.used + 1 ≤ (listSwap (stm.list ++ [free1]) stm.list.length stm.used).length
    rw [hlen']
    omega
  · intro k hk hge
    show (listSwap (stm.list ++ [free1]) stm.list.length stm.used).getD k [] = []
    rw [hlen'] at hk
    have hge2 : stm.used + 1 ≤ k := hge
    rw [hlay k, if_neg (by omega)]
    by_cases hkL : k = stm.list.length
    · rw [if_pos hkL]
      exact m2 _ (by omega) le_rfl
    · rw [if_neg hkL]
      exact m2 k (by omega) (by omega)
  · intro k hk
    show (listSwap (stm.list ++ [free1]) stm.list.length stm.used).getD k [] ≠ []
    have hk2 : k < stm.used + 1 := hk
    rw [hlay k]
    by_cases hku : k = stm.used
    · rw [if_pos hku]
      exact hfe
    · rw [if_neg hku, if_neg (by omega)]
      exact m3 k (by omega)
  · intro k hk j hj x hx
    have hk2 : k < stm.used + 1 := hk
    have hjlt : j < stm.used := by omega
    have hxk : x ∈ (listSwap (stm.list ++ [free1]) stm.list.length stm.used).getD k [] := hx
    rw [hlay k] at hxk
    show x ≠ ((listSwap (stm.list ++ [free1]) stm.list.length stm.used).getD j []).headI
    rw [hlay j, if_neg (by omega), if_neg (by omega)]
    by_cases hku : k = stm.used
    · rw [if_pos hku] at hxk
      obtain ⟨-, hnh⟩ := hmem x hxk
      intro hc
      exact hnh _ (heads_mem m1 hjlt) hc.symm
    · rw [if_neg hku, if_neg (by omega)] at hxk
      exact m4 k (by omega) j hj x hxk
  · intro k hk
    have hk2 : k < stm.used + 1 := hk
    show ((listSwap (stm.list ++ [free1]) stm.list.length stm.used).getD k []).headI ∉
      stm.result
    rw [hlay k]
    by_cases hku : k = stm.used
    · rw [if_pos hku]
      exact (hmem free1.headI (headI_mem hfe)).1
    · rw [if_neg hku, if_neg (by omega)]
      exact m5 k (by omega)

theorem add_StInv (g : T → Except E (List T)) {st st' : DepMap T}
    {r : Option (List T)} (h : StInv st) (hadd : st.add g = .ok (st', r)) :
    StInv st' := by
  by_cases h0 : st.used = 0
  · rw [add_eq_empty g h0] at hadd
    injection hadd with hadd
    injection hadd with hadd1 hadd2
    rw [← hadd1]
    exact h
  · have hm := get_free_StInv st h
    rcases hg : g st.get_free.2.frontier with e | deps
    · rw [add_eq_err g h0 hg] at hadd
      exact absurd hadd (by simp)
    · rcases hscan : scanDeps st.get_free.2.result st.get_free.2.heads st.get_free.1 deps
        with pos | free1
      · rw [add_eq_cycle g h0 hg hscan] at hadd
        injection hadd with hadd
        injection hadd with hadd1 hadd2
        rw [← hadd1]
        exact StInv_append_empty hm
      · by_cases hfe : free1 = []
        · subst hfe
          rw [add_eq_done_nil g h0 hg hscan] at hadd
          injection hadd with hadd
          injection hadd with hadd1 hadd2
          rw [← hadd1]
          exact drop_cur_StInv hm
        · rw [add_eq_done_push g h0 hg hscan hfe] at hadd
          injection hadd with hadd
          injection hadd with hadd1 hadd2
          rw [← hadd1]
          have hfree : st.get_free.1 = [] := get_free_fst st h.2.1
          obtain ⟨⟨rest, hrest, hrestp⟩, hcov⟩ := scanDeps_done_spec hscan
          rw [hfree, List.nil_append] at hrest
          subst hrest
          exact StInv_push hm hfe (fun x hx =>
            ⟨(hrestp x hx).2.1, (hrestp x hx).2.2⟩)

/-! ## Claim C8: structural invariants after new and add -/

theorem StInv_new (init : List T) : StInv (DepMap.new init) := by
  by_cases hinit : init = []
  · subst hinit
    refine ⟨by simp [DepMap.new], ?_, ?_, ?_, ?_, List.nodup_nil⟩
    · intro k hk hge
      show ([([] : List T)] : List (List T)).getD k [] = []
      cases k with
      | zero => rfl
      | succ k2 => exact getD_of_le (by simp)
    · intro k hk
      simp [DepMap.new] at hk
    · intro k hk
      simp [DepMap.new] at hk
    · intro k hk
      simp [DepMap.new] at hk
  · refine ⟨by simp [DepMap.new, hinit], ?_, ?_, ?_, ?_, List.nodup_nil⟩
    · intro k hk hge
      simp [DepMap.new, hinit] at hk hge
      omega
    · intro k hk
      have hk1 : k = 0 := by
        simp [DepMap.new, hinit] at hk
        omega
      subst hk1
      show ([init] : List (List T)).getD 0 [] ≠ []
      simpa using hinit
    · intro k hk j hj x hx
      have : k < 1 := by simpa [DepMap.new, hinit] using hk
      omega
    · intro k hk
      show _ ∉ ([] : List T)
      simp

/-- C8: after `new`, and after every completed call to `add` that returns
`Ok` (whether it descended, ran the finalization cascade, or detected a
cycle), the store satisfies I2 (each active layer non-empty), I3 (each
free layer empty) and I5 (active-path items pairwise distinct) together
— indeed the full structural invariant `StInv`, which contains I2, I3
and strengthens I5. -/
theorem c8_invariants :
    (∀ init : List T, StInv (DepMap.new init)) ∧
    ∀ (g : T → Except E (List T)) (st st' : DepMap T) (r : Option (List T)),
      StInv st → st.add g = .ok (st', r) →
      (activeNonempty st' ∧ freeEmpty st' ∧ headsDistinct st') ∧ StInv st' := by
  refine ⟨StInv_new, ?_⟩
  intro g st st' r h hadd
  have h' := add_StInv g h hadd
  exact ⟨⟨h'.2.2.1, h'.2.1, h'.headsDistinct_of⟩, h'⟩

/-- C8 witness: a concrete `add` step (expanding item 0 of the diamond
graph from the fresh store over `[0]`) preserves the invariants. -/
theorem c8_invariants_witness :
    activeNonempty (DepMap.mk [[0], [1, 2]] ([] : List Nat) 2) ∧
      freeEmpty (DepMap.mk [[0], [1, 2]] ([] : List Nat) 2) ∧
      headsDistinct (DepMap.mk [[0], [1, 2]] ([] : List Nat) 2) :=
  ((c8_invariants (T := Nat) (E := Unit)).2 exProdDiamond (DepMap.new [0])
    (DepMap.mk [[0], [1, 2]] [] 2) none (by decide) rfl).1

/-! ## Claim C9: frame effect of a cycle-detecting add -/

/-- C9: when `add` detects a cycle and returns `Ok (Some chain)`, the
store it leaves behind has `used` unchanged, every active layer's
contents unchanged (in particular the frontier item still first on the
deepest active layer), the result sequence unchanged, and every layer of
the free region — including the layer taken at the start of the call,
returned cleared — empty; the dependencies yielded in that call are
discarded, not queued. -/
theorem c9_cycle_frame (g : T → Except E (List T)) {st st' : DepMap T} {chain : List T}
    (hfe : freeEmpty st) (hlen : st.used ≤ st.list.length)
    (hadd : st.add g = .ok (st', some chain)) :
    st'.used = st.used ∧ st'.result = st.result ∧
      (∀ k, k < st.used → st'.layer k = st.layer k) ∧
      st'.frontier = st.frontier ∧
      ∀ k, st.used ≤ k → st'.layer k = [] := by
  by_cases h0 : st.used = 0
  · rw [add_eq_empty g h0] at hadd
    have : (none : Option (List T)) = some chain := by
      injection hadd with h1
      injection h1 with h2 h3
    exact absurd this (by simp)
  · have hlayerm : ∀ k, st.get_free.2.layer k = st.layer k := get_free_layer st hfe
    rcases hg : g st.get_free.2.frontier with e | deps
    · rw [add_eq_err g h0 hg] at hadd
      exact absurd hadd (by simp)
    · rcases hscan : scanDeps st.get_free.2.result st.get_free.2.heads st.get_free.1 deps
        with pos | free1
      · rw [add_eq_cycle g h0 hg hscan] at hadd
        injection hadd with hadd
        injection hadd with hadd1 hadd2
        rw [← hadd1]
        have hused : ({ st.get_free.2 with list := st.get_free.2.list ++ [[]] } :
            DepMap T).used = st.used := get_free_used st
        have hres : ({ st.get_free.2 with list := st.get_free.2.list ++ [[]] } :
            DepMap T).result = st.result := get_free_result st
        have hmfe : ∀ k, st.get_free.2.used ≤ k → st.get_free.2.layer k = [] := by
          intro k hk
          rw [hlayerm k]
          rw [get_free_used] at hk
          rcases Nat.lt_or_ge k st.list.length with h1 | h1
          · exact hfe k h1 hk
          · exact getD_of_le h1
        have hmlen : st.used ≤ st.get_free.2.list.length := by
          rw [DepMap.get_free]
          by_cases hc : st.used < st.list.length
          · simp only [if_pos hc]
            show st.used ≤ st.list.dropLast.length
            rw [List.length_dropLast]
            omega
          · simp only [if_neg hc]
            exact hlen
        have hlay : ∀ k, k < st.used →
            ({ st.get_free.2 with list := st.get_free.2.list ++ [[]] } :
              DepMap T).layer k = st.layer k := by
          intro k hk
          show (st.get_free.2.list ++ [[]]).getD k [] = st.layer k
          rw [getD_append (by omega)]
          exact hlayerm k
        refine ⟨hused, hres, hlay, ?_, ?_⟩
        · show (({ st.get_free.2 with list := st.get_free.2.list ++ [[]] } :
            DepMap T).layer (({ st.get_free.2 with
              list := st.get_free.2.list ++ [[]] } : DepMap T).used - 1)).headI = _
          rw [hused, hlay _ (by omega)]
          rfl
        · intro k hk
          show (st.get_free.2.list ++ [[]]).getD k [] = []
          rcases Nat.lt_or_ge k st.get_free.2.list.length with h1 | h1
          · rw [getD_append h1]
            exact hmfe k (by rw [get_free_used]; omega)
          · rw [getD_append_right h1]
            rcases Nat.lt_or_ge (k - st.get_free.2.list.length) 1 with hc | hc
            · have hc0 : k - st.get_free.2.list.length = 0 := by omega
              rw [hc0]
              rfl
            · exact getD_of_le (by simpa using hc)
      · by_cases hfe1 : free1 = []
        · subst hfe1
          rw [add_eq_done_nil g h0 hg hscan] at hadd
          have : (none : Option (List T)) = some chain := by
            injection hadd with h1
            injection h1 with h2 h3
          exact absurd this (by simp)
        · rw [add_eq_done_push g h0 hg hscan hfe1] at hadd
          have : (none : Option (List T)) = some chain := by
            injection hadd with h1
            injection h1 with h2 h3
          exact absurd this (by simp)

/-- C9 witness: the concrete cycle-detecting step of the two-cycle
example, from the store `[[0], [1]]` with both layers active. -/
theorem c9_cycle_frame_witness :
    (DepMap.mk [[0], [1], []] ([] : List Nat) 2).used = 2 ∧
      (DepMap.mk [[0], [1], []] ([] : List Nat) 2).result = [] ∧
      (DepMap.mk [[0], [1], []] ([] : List Nat) 2).layer 1 = [1] ∧
      (DepMap.mk [[0], [1], []] ([] : List Nat) 2).frontier = 1 ∧
      (DepMap.mk [[0], [1], []] ([] : List Nat) 2).layer 2 = [] := by
  have h := @c9_cycle_frame Nat Unit _ _ exProdAB
    (DepMap.mk [[0], [1]] ([] : List Nat) 2)
    (DepMap.mk [[0], [1], []] ([] : List Nat) 2) [0, 1]
    (by decide) (by decide) rfl
  exact ⟨h.1, h.2.1, h.2.2.1 1 (by decide), h.2.2.2.1, h.2.2.2.2 2 (by decide)⟩

/-! ## Driver step lemmas -/

theorem destroy_error {st : DepMap T} (h : st.used ≠ 0) : st.destroy = .error st := by
  rw [DepMap.destroy]
  simp [DepMap.is_empty, h]

theorem destroy_ok {st : DepMap T} (h : st.used = 0) : st.destroy = .ok st.result := by
  rw [DepMap.destroy]
  simp [DepMap.is_empty, h]

theorem processFull_done (g : T → Except E (List T)) (fuel : Nat) {st : DepMap T}
    (h : st.used = 0) :
    DepMap.processFull g (fuel + 1) st = (some (.ok st.result), []) := by
  conv_lhs => rw [DepMap.processFull]
  rw [destroy_ok h]

theorem processFull_err (g : T → Except E (List T)) (fuel : Nat) {st : DepMap T} {e : E}
    (h0 : st.used ≠ 0) (hadd : st.add g = .error e) :
    DepMap.processFull g (fuel + 1) st =
      (some (.error (Error.fromUser e)), [st.frontier]) := by
  conv_lhs => rw [DepMap.processFull]
  rw [destroy_error h0]
  show (match st.add g with
    | Except.error e => (some (Except.error (Error.fromUser e)), [st.frontier])
    | Except.ok (st1, some chain) =>
      (some (Except.error (Error.CyclicDep (((st1.list.take st1.used).drop
        (st1.used - chain.length)).map List.headI))), [st.frontier])
    | Except.ok (st1, none) =>
      ((DepMap.processFull g fuel st1).1,
        st.frontier :: (DepMap.processFull g fuel st1).2)) = _
  rw [hadd]

theorem processFull_cycle (g : T → Except E (List T)) (fuel : Nat)
    {st st1 : DepMap T} {chain : List T}
    (h0 : st.used ≠ 0) (hadd : st.add g = .ok (st1, some chain)) :
    DepMap.processFull g (fuel + 1) st =
      (some (.error (.CyclicDep (((st1.list.take st1.used).drop
        (st1.used - chain.length)).map List.headI))), [st.frontier]) := by
  conv_lhs => rw [DepMap.processFull]
  rw [destroy_error h0]
  show (match st.add g with
    | Except.error e => (some (Except.error (Error.fromUser e)), [st.frontier])
    | Except.ok (st1, some chain) =>
      (some (Except.error (Error.CyclicDep (((st1.list.take st1.used).drop
        (st1.used - chain.length)).map List.headI))), [st.frontier])
    | Except.ok (st1, none) =>
      ((DepMap.processFull g fuel st1).1,
        st.frontier :: (DepMap.processFull g fuel st1).2)) = _
  rw [hadd]

theorem processFull_next (g : T → Except E (List T)) (fuel : Nat) {st st1 : DepMap T}
    (h0 : st.used ≠ 0) (hadd : st.add g = .ok (st1, none)) :
    DepMap.processFull g (fuel + 1) st =
      ((DepMap.processFull g fuel st1).1,
        st.frontier :: (DepMap.processFull g fuel st1).2) := by
  conv_lhs => rw [DepMap.processFull]
  rw [destroy_error h0]
  show (match st.add g with
    | Except.error e => (some (Except.error (Error.fromUser e)), [st.frontier])
    | Except.ok (st1, some chain) =>
      (some (Except.error (Error.CyclicDep (((st1.list.take st1.used).drop
        (st1.used - chain.length)).map List.headI))), [st.frontier])
    | Except.ok (st1, none) =>
      ((DepMap.processFull g fuel st1).1,
        st.frontier :: (DepMap.processFull g fuel st1).2)) = _
  rw [hadd]

theorem get_free_take (st : DepMap T) :
    st.get_free.2.list.take st.used = st.list.take st.used := by
  rw [DepMap.get_free]
  by_cases h : st.used < st.list.length
  · simp only [if_pos h]
    show st.list.dropLast.take st.used = st.list.take st.used
    rw [List.dropLast_eq_take, List.take_take, Nat.min_eq_left (by omega)]
  · simp [h]

/-! ## Claim C2: cycle detection and the reported chain -/

/-- C2: whenever a dependency `d` yielded by the producer for the current
frontier equals the active item of some active layer (`pos` being the
shallowest such layer, and the earlier-yielded dependencies of that call
not themselves triggering: each is either finalized or off the active
path), `add` reports a cycle and `process` fails with `CyclicDependency`
and never returns a result.  The chain carried by the error is exactly
the active-path slice from layer `pos` through the current frontier,
inclusive, in shallow-to-deep order: it has length `used - pos` and its
`(i - pos)`-th entry is the active item of layer `i`; in particular its
first entry is `d` and its last the frontier.  Concretely, the initial
list `[A]` with `A -> [B]`, `B -> [A]` yields `CyclicDependency [A, B]`,
and `A -> [A]` yields `CyclicDependency [A]`. -/
theorem c2_cycle_report :
    (∀ (g : T → Except E (List T)) (st : DepMap T) (deps pre post : List T) (d : T)
        (pos fuel : Nat),
      StInv st → st.used ≠ 0 →
      g st.frontier = .ok deps →
      deps = pre ++ d :: post →
      (∀ p2 ∈ pre, p2 ∈ st.result ∨ ∀ j, j < st.used → p2 ≠ (st.layer j).headI) →
      pos < st.used → (st.layer pos).headI = d →
      (∀ j, j < pos → (st.layer j).headI ≠ d) →
      ∃ st', st.add g =
          .ok (st', some (((st.list.take st.used).drop pos).map List.headI)) ∧
        (((st.list.take st.used).drop pos).map List.headI).length = st.used - pos ∧
        (∀ i, pos ≤ i → i < st.used →
          (((st.list.take st.used).drop pos).map List.headI).getD (i - pos) d =
            (st.layer i).headI) ∧
        (DepMap.processFull g (fuel + 1) st).1 =
          some (.error (.CyclicDep (((st.list.take st.used).drop pos).map List.headI)))) ∧
    DepMap.process exProdAB 10 [0] = some (.error (.CyclicDep [0, 1])) ∧
    DepMap.process exProdAA 10 [0] = some (.error (.CyclicDep [0])) := by
  refine ⟨?_, rfl, rfl⟩
  intro g st deps pre post d pos fuel hst h0 hdeps hsplit hpre hpos hposd hfirst
  have hlen : st.used ≤ st.list.length := hst.1
  have hchainlen : (((st.list.take st.used).drop pos).map List.headI).length =
      st.used - pos := by
    rw [List.length_map, List.length_drop, List.length_take]
    omega
  have hchain_at : ∀ i, pos ≤ i → i < st.used →
      (((st.list.take st.used).drop pos).map List.headI).getD (i - pos) d =
        (st.layer i).headI := by
    intro i hi1 hi2
    have hlt : i - pos < (((st.list.take st.used).drop pos).map List.headI).length := by
      rw [hchainlen]
      omega
    rw [getD_eq_getElem hlt]
    rw [List.getElem_map, List.getElem_drop, List.getElem_take]
    have hpi : pos + (i - pos) = i := by omega
    simp only [hpi]
    have hb : i < st.list.length := by omega
    show (st.list[i]).headI = (st.list.getD i []).headI
    rw [getD_eq_getElem hb]
  -- the classification loop hits d and reports the slice from pos
  have hmfr : st.get_free.2.frontier = st.frontier := get_free_frontier st h0
  have hmres : st.get_free.2.result = st.result := get_free_result st
  have hmheads : st.get_free.2.heads = st.heads := get_free_heads st
  have hdnotres : d ∉ st.result := by
    rw [← hposd]
    exact hst.2.2.2.2.1 pos hpos
  have hposition : position (fun c => c == d) st.heads = some pos := by
    apply position_eq_some_of d
    · rw [heads_length hlen]
      exact hpos
    · rw [heads_getD_eq hlen hpos, hposd]
      simp
    · intro j hj
      rw [heads_getD_eq hlen (by omega)]
      simpa using hfirst j hj
  have hscan : scanDeps st.get_free.2.result st.get_free.2.heads st.get_free.1 deps =
      .cycle pos := by
    rw [hsplit]
    apply scanDeps_cycle_of
    · intro p2 hp2
      rcases hpre p2 hp2 with h1 | h1
      · left
        rw [hmres]
        exact h1
      · right
        intro c hc
        rw [hmheads] at hc
        obtain ⟨j, hj1, hj2, hj3⟩ := heads_exists hc
        rw [hj3]
        exact fun hcx => h1 j hj1 hcx.symm
    · rw [hmres]
      exact hdnotres
    · rw [hmheads]
      exact hposition
  have hdeps2 : g st.get_free.2.frontier = .ok deps := by
    rw [hmfr]
    exact hdeps
  have hchain_eq : ((st.get_free.2.list.take st.get_free.2.used).drop pos).map
      List.headI = ((st.list.take st.used).drop pos).map List.headI := by
    rw [get_free_used, get_free_take]
  have hadd := add_eq_cycle g h0 hdeps2 hscan
  rw [hchain_eq] at hadd
  refine ⟨_, hadd, hchainlen, hchain_at, ?_⟩
  have hpf := processFull_cycle g fuel h0 hadd
  rw [hpf]
  -- the driver re-materializes the same slice from the post-add store
  have hmlen : st.used ≤ st.get_free.2.list.length := by
    rw [DepMap.get_free]
    by_cases hc : st.used < st.list.length
    · simp only [if_pos hc]
      show st.used ≤ st.list.dropLast.length
      rw [List.length_dropLast]
      omega
    · simp only [if_neg hc]
      exact hlen
  show some (Except.error (Error.CyclicDep ((((st.get_free.2.list ++ [[]]).take
      st.get_free.2.used).drop (st.get_free.2.used -
        (((st.list.take st.used).drop pos).map List.headI).length)).map List.headI))) =
    some (Except.error (Error.CyclicDep (((st.list.take st.used).drop pos).map
      List.headI)))
  rw [hchainlen, get_free_used st]
  have hposeq : st.used - (st.used - pos) = pos := by omega
  rw [hposeq, List.take_append_of_le_length hmlen, get_free_take]

/-- C2 witness: the general cycle-report statement applied to the
concrete state in which the two-cycle example detects its cycle (the
store `[[0], [1]]`, frontier `1`, yielded dependency `0` matching the
active item of layer `0`). -/
theorem c2_cycle_report_witness :
    ∃ st', (DepMap.mk [[0], [1]] ([] : List Nat) 2).add exProdAB =
        .ok (st', some [0, 1]) ∧
      ([0, 1] : List Nat).length = 2 - 0 ∧
      (∀ i, 0 ≤ i → i < 2 →
        ([0, 1] : List Nat).getD (i - 0) 0 =
          ((DepMap.mk [[0], [1]] ([] : List Nat) 2).layer i).headI) ∧
      (DepMap.processFull exProdAB (3 + 1) (DepMap.mk [[0], [1]] ([] : List Nat) 2)).1 =
        some (.error (.CyclicDep [0, 1])) :=
  (c2_cycle_report (T := Nat) (E := Unit)).1 exProdAB
    (DepMap.mk [[0], [1]] [] 2) [0] [] [] 0 0 3
    (by decide) (by decide) rfl rfl (by simp) (by decide) (by decide)
    (fun j hj => absurd hj (by omega))

/-! ## Claim C7: user-error propagation -/

theorem getLast?_cons_of_ne {A : Type} {l : List A} (a : A) (h : l ≠ []) :
    (a :: l).getLast? = l.getLast? := by
  cases l with
  | nil => exact absurd rfl h
  | cons b bs => exact List.getLast?_cons_cons

theorem add_error_inv {g : T → Except E (List T)} {st : DepMap T} {e : E}
    (h0 : st.used ≠ 0) (h : st.add g = .error e) : g st.frontier = .error e := by
  rcases hg : g st.get_free.2.frontier with e2 | deps
  · have h2 := add_eq_err g h0 hg
    rw [h] at h2
    injection h2 with h3
    rw [← get_free_frontier st h0, hg, h3]
  · rcases hscan : scanDeps st.get_free.2.result st.get_free.2.heads st.get_free.1 deps
      with pos | free1
    · rw [add_eq_cycle g h0 hg hscan] at h
      exact absurd h (by simp)
    · by_cases hfe : free1 = []
      · subst hfe
        rw [add_eq_done_nil g h0 hg hscan] at h
        exact absurd h (by simp)
      · rw [add_eq_done_push g h0 hg hscan hfe] at h
        exact absurd h (by simp)

theorem add_ok_inv {g : T → Except E (List T)} {st st1 : DepMap T}
    {r : Option (List T)} (h0 : st.used ≠ 0) (h : st.add g = .ok (st1, r)) :
    ∃ deps, g st.frontier = .ok deps := by
  rcases hg : g st.get_free.2.frontier with e2 | deps
  · rw [add_eq_err g h0 hg] at h
    exact absurd h (by simp)
  · exact ⟨deps, by rwa [get_free_frontier st h0] at hg⟩

/-- C7: if the producer returns an error for some visited (invoked) item,
`process` returns that exact error value wrapped as `UserError` (via the
`From` impl, propagated unchanged), makes no further producer invocations
after the failing call (the failing call is the last recorded one), and
exposes no partial result (the outcome is that error, not `Ok`). -/
theorem c7_error_propagation :
    ∀ (g : T → Except E (List T)) (fuel : Nat) (st : DepMap T)
      (out : Except (Error T E) (List T)) (calls : List T),
      DepMap.processFull g fuel st = (some out, calls) →
      ∀ x ∈ calls, ∀ e, g x = .error e →
        out = .error (Error.fromUser e) ∧ calls.getLast? = some x := by
  intro g fuel
  induction fuel with
  | zero =>
    intro st out calls h
    rw [DepMap.processFull] at h
    exact absurd h (by simp)
  | succ fuel ih =>
    intro st out calls h x hx e hge
    by_cases h0 : st.used = 0
    · rw [processFull_done g fuel h0] at h
      injection h with h1 h2
      rw [← h2] at hx
      simp at hx
    · rcases hadd : st.add g with e2 | p
      · rw [processFull_err g fuel h0 hadd] at h
        injection h with h1 h2
        have hxfr : x = st.frontier := by
          rw [← h2] at hx
          simpa using hx
        have hgfr := add_error_inv h0 hadd
        rw [hxfr, hgfr] at hge
        injection hge with hee
        injection h1 with h1
        rw [← h1, ← h2, hxfr, hee]
        exact ⟨rfl, rfl⟩
      · rcases p with ⟨st1, r⟩
        obtain ⟨deps, hdeps⟩ := add_ok_inv h0 hadd
        rcases r with _ | chain
        · have hstep := processFull_next g fuel h0 hadd
          rcases hpair : DepMap.processFull g fuel st1 with ⟨o1, c1⟩
          rw [hpair] at hstep
          rw [h] at hstep
          have ho1 : some out = o1 := by
            simpa using congrArg Prod.fst hstep
          have hc1 : calls = st.frontier :: c1 := by
            simpa using congrArg Prod.snd hstep
          rw [hc1] at hx
          rcases List.mem_cons.1 hx with hx1 | hx1
          · rw [hx1, hdeps] at hge
            exact absurd hge (by simp)
          · have hc1ne : c1 ≠ [] := fun hc => by
              rw [hc] at hx1
              simp at hx1
            obtain ⟨ha, hb⟩ := ih st1 out c1 (by rw [hpair, ← ho1]) x hx1 e hge
            refine ⟨ha, ?_⟩
            rw [hc1, getLast?_cons_of_ne _ hc1ne]
            exact hb
        · rw [processFull_cycle g fuel h0 hadd] at h
          injection h with h1 h2
          have hxfr : x = st.frontier := by
            rw [← h2] at hx
            simpa using hx
          rw [hxfr, hdeps] at hge
          exact absurd hge (by simp)

/-- C7 witness: the concrete failing run `0 -> [1]`, `1 -> error 42`. -/
theorem c7_error_propagation_witness :
    (Except.error (Error.UserDef 42) : Except (Error Nat Nat) (List Nat)) =
        .error (Error.fromUser 42) ∧
      ([0, 1] : List Nat).getLast? = some 1 :=
  c7_error_propagation exProdErr 20 (DepMap.new [0])
    (.error (Error.UserDef 42)) [0, 1] (by decide) 1 (by decide) 42 (by decide)

/-! ## Claim C10: empty initial list -/

/-- C10: for an empty initial item list, `process` returns `Ok` with an
empty result sequence and never invokes the producer (the store is
created with `used = 0`, so the driver's first emptiness check succeeds
immediately).  The recorded producer-invocation list is empty. -/
theorem c10_empty_initial (g : T → Except E (List T)) (fuel : Nat) :
    (DepMap.new ([] : List T)).used = 0 ∧
      DepMap.processFull g (fuel + 1) (DepMap.new ([] : List T)) =
        (some (.ok []), []) :=
  ⟨rfl, rfl⟩

/-! ## Claim C5: sibling order after finalizing the first element -/

/-- C5 counterexample: the claim predicts that removing the first element
of the active layer `[1, 2, 3]` leaves `[2, 3]` (relative producer-yield
order preserved, new first element `2`); the code's `swap_remove(0)`
instead leaves `[3, 2]`, with the last-yielded sibling `3` moved to the
front. -/
theorem c5_counterexample :
    DepMap.drop_cur { list := [[1, 2, 3]], result := [], used := 1 } =
      ({ list := [[3, 2]], result := [1], used := 1 } : DepMap Nat) ∧
      ¬ DepMap.drop_cur { list := [[1, 2, 3]], result := [], used := 1 } =
          ({ list := [[2, 3]], result := [1], used := 1 } : DepMap Nat) := by
  exact ⟨rfl, by decide⟩

/-- C5 amended: for an active layer holding siblings
`d1 :: mid ++ [dn]` (at least three siblings, i.e. `mid ≠ []`) in
producer-yield order, when the finalization cascade removes the first
element `d1`, the layer afterwards is `dn :: mid`: the LAST-yielded
sibling `dn` is moved into the front slot (`Vec::swap_remove(0)`), the
relative order of the other siblings `mid` is preserved behind it, and
the new first element inspected next — and, as it is not finalized, the
new frontier at that depth — is `dn`, the latest-yielded remaining
sibling. -/
theorem c5_amended (st : DepMap T) (d1 dn : T) (mid : List T) (u : Nat)
    (hu : st.used = u + 1)
    (hlayer : st.layer u = d1 :: mid ++ [dn])
    (hmid : mid ≠ [])
    (hdn1 : dn ∉ st.result) (hdn2 : dn ≠ d1) :
    st.drop_cur.layer u = dn :: mid ∧
      st.drop_cur.result = st.result ++ [d1] ∧
      st.drop_cur.used = u + 1 ∧ st.drop_cur.frontier = dn := by
  have hswap : swapRemove0 (d1 :: mid ++ [dn]) = dn :: mid := by
    cases mid with
    | nil => exact absurd rfl hmid
    | cons m ms =>
      show (((m :: ms) ++ [dn]).getLast (List.cons_ne_nil m (ms ++ [dn]))) ::
          ((m :: ms) ++ [dn]).dropLast = dn :: m :: ms
      rw [List.dropLast_concat]
      have hgl : ((m :: ms) ++ [dn]).getLast (List.cons_ne_nil m (ms ++ [dn])) = dn :=
        List.getLast_concat (m :: ms)
      rw [hgl]
  have hscan : dropScan (st.result ++ [d1]) (dn :: mid) = dn :: mid := by
    rw [dropScan_eq, if_neg (List.cons_ne_nil dn mid)]
    have : (dn :: mid).headI ∉ st.result ++ [d1] := by
      simp [List.headI]
      exact ⟨hdn1, hdn2⟩
    rw [if_neg this]
  have hul : u < st.list.length := by
    by_contra hc
    have : st.layer u = [] := getD_of_le (by omega)
    rw [hlayer] at this
    simp at this
  have hdc : dropCurAux st.list st.result st.used =
      (st.list.set u (dn :: mid), st.result ++ [d1], u + 1) := by
    rw [hu]
    show (let l := st.list.getD u []
      let result1 := st.result ++ [l.headI]
      let l1 := dropScan result1 (swapRemove0 l)
      let list1 := st.list.set u l1
      if l1 = [] then dropCurAux list1 result1 u else (list1, result1, u + 1)) = _
    simp only [show st.list.getD u [] = d1 :: mid ++ [dn] from hlayer, hswap]
    have hh : (d1 :: mid ++ [dn]).headI = d1 := rfl
    rw [hh, hscan, if_neg (List.cons_ne_nil dn mid)]
  refine ⟨?_, ?_, ?_, ?_⟩
  · show (dropCurAux st.list st.result st.used).1.getD u [] = dn :: mid
    rw [hdc]
    exact getD_set_self hul
  · show (dropCurAux st.list st.result st.used).2.1 = _
    rw [hdc]
  · show (dropCurAux st.list st.result st.used).2.2 = _
    rw [hdc]
  · show ((dropCurAux st.list st.result st.used).1.getD
        ((dropCurAux st.list st.result st.used).2.2 - 1) []).headI = dn
    rw [hdc]
    simp only [Nat.add_sub_cancel]
    rw [getD_set_self hul]
    rfl

/-! ## Producer-dependent invariant preservation -/

theorem GInv_new (g : T → Except E (List T)) (init : List T) :
    GInv g init (DepMap.new init) := by
  have hused : (DepMap.new init).used ≤ 1 := by
    rw [DepMap.new]
    split <;> simp
  refine ⟨StInv_new init, ?_, ?_, ?_, ?_⟩
  · intro x hx
    have : x ∈ ([] : List T) := hx
    simp at this
  · intro k hk
    omega
  · intro x hx
    rcases hx with hx | ⟨k, hk, hx⟩
    · have : x ∈ ([] : List T) := hx
      simp at this
    · have hk0 : k = 0 := by omega
      subst hk0
      have : x ∈ init := by
        have h2 : (DepMap.new init).layer 0 = init := rfl
        rwa [h2] at hx
      exact ⟨x, this, Relation.ReflTransGen.refl⟩
  · intro x hx
    have hne : init ≠ [] := fun hc => by
      rw [hc] at hx
      simp at hx
    right
    refine ⟨0, ?_, hx⟩
    show 0 < (DepMap.new init).used
    rw [DepMap.new]
    simp [hne]

theorem get_free_GInv (g : T → Except E (List T)) (init : List T) {st : DepMap T}
    (h : GInv g init st) : GInv g init st.get_free.2 := by
  have hfe : freeEmpty st := h.base.2.1
  refine ⟨get_free_StInv st h.base, ?_, ?_, ?_, ?_⟩
  · rw [get_free_result]
    exact h.topo
  · intro k hk
    rw [get_free_used] at hk
    rw [get_free_layer st hfe, get_free_layer st hfe, get_free_result]
    exact h.parentDeps k hk
  · intro x hx
    apply h.reachAll
    rcases hx with hx | ⟨k, hk, hx⟩
    · left
      rwa [get_free_result] at hx
    · right
      rw [get_free_used] at hk
      rw [get_free_layer st hfe] at hx
      exact ⟨k, hk, hx⟩
  · intro x hx
    rcases h.initCov x hx with h1 | ⟨k, hk, h1⟩
    · left
      rwa [get_free_result]
    · right
      rw [get_free_used]
      rw [← get_free_layer st hfe] at h1
      exact ⟨k, hk, h1⟩

theorem add_GInv (g : T → Except E (List T)) (init : List T) {st st' : DepMap T}
    (h : GInv g init st) (hadd : st.add g = .ok (st', none)) : GInv g init st' := by
  by_cases h0 : st.used = 0
  · rw [add_eq_empty g h0] at hadd
    injection hadd with hadd
    injection hadd with hadd1 hadd2
    rw [← hadd1]
    exact h
  · have hm := get_free_GInv g init h
    obtain ⟨mb, mtopo, mpd, mreach, mcov⟩ := hm
    have hm0 : st.get_free.2.used ≠ 0 := by
      rw [get_free_used]
      exact h0
    rcases hg : g st.get_free.2.frontier with e | deps
    · rw [add_eq_err g h0 hg] at hadd
      exact absurd hadd (by simp)
    · rcases hscan : scanDeps st.get_free.2.result st.get_free.2.heads st.get_free.1 deps
        with pos | free1
      · rw [add_eq_cycle g h0 hg hscan] at hadd
        injection hadd with hadd
        injection hadd with hadd1 hadd2
        exact absurd hadd2 (by simp)
      · by_cases hfe : free1 = []
        · -- finalization cascade
          subst hfe
          rw [add_eq_done_nil g h0 hg hscan] at hadd
          injection hadd with hadd
          injection hadd with hadd1 hadd2
          rw [← hadd1]
          obtain ⟨b1, b2, b3, b4, b5, b6⟩ := mb
          have hdeps_done : ∀ d ∈ deps, d ∈ st.get_free.2.result :=
            (scanDeps_done_nil hscan).2
          have hent : st.get_free.2.used ≠ 0 →
              ∃ l, g ((st.get_free.2.list.getD (st.get_free.2.used - 1) []).headI) =
                .ok l ∧ ∀ d ∈ l, d ∈ st.get_free.2.result := by
            intro _
            exact ⟨deps, hg, hdeps_done⟩
          have O := drop_cur_out ⟨b1, b2, b3, b4, b5, b6⟩
          have TT := dropCurAux_topo g st.get_free.2.used st.get_free.2.list
            st.get_free.2.result b1 b3 b4 b5 b6 mtopo
            (fun k hk => mpd k hk) hent
          refine ⟨drop_cur_StInv ⟨b1, b2, b3, b4, b5, b6⟩, TT.1, TT.2, ?_, ?_⟩
          · intro x hx
            apply mreach
            rcases hx with hx | ⟨k, hk, hx⟩
            · obtain ⟨news, hnews, -, hnewsmem⟩ := O.res_ext
              rw [show st.get_free.2.drop_cur.result =
                  st.get_free.2.result ++ news from hnews] at hx
              rcases List.mem_append.1 hx with h1 | h1
              · exact Or.inl h1
              · obtain ⟨m, -, hm2, hm3⟩ := hnewsmem x h1
                exact Or.inr ⟨m, hm2, hm3⟩
            · right
              by_cases hk1 : k + 1 < st.get_free.2.drop_cur.used
              · rw [show st.get_free.2.drop_cur.layer k =
                    st.get_free.2.layer k from O.lower k hk1] at hx
                exact ⟨k, by have := O.used_le; omega, hx⟩
              · have hke : k = st.get_free.2.drop_cur.used - 1 := by omega
                rw [hke] at hx
                have hx2 := O.last_sub x hx
                rw [← hke] at hx2
                exact ⟨k, by have := O.used_le; omega, hx2⟩
          · intro x hx
            rcases mcov x hx with h1 | ⟨k, hk, h1⟩
            · left
              obtain ⟨news, hnews, -, -⟩ := O.res_ext
              rw [show st.get_free.2.drop_cur.result =
                  st.get_free.2.result ++ news from hnews]
              exact List.mem_append_left _ h1
            · rcases O.mem_cover k hk x h1 with h2 | ⟨h2, h3⟩
              · exact Or.inl h2
              · exact Or.inr ⟨k, h2, h3⟩
        · -- descend
          rw [add_eq_done_push g h0 hg hscan hfe] at hadd
          injection hadd with hadd
          injection hadd with hadd1 hadd2
          rw [← hadd1]
          obtain ⟨b1, b2, b3, b4, b5, b6⟩ := mb
          have hfree : st.get_free.1 = [] := get_free_fst st h.base.2.1
          obtain ⟨⟨rest, hrest, hrestp⟩, hcov⟩ := scanDeps_done_spec hscan
          rw [hfree, List.nil_append] at hrest
          subst hrest
          have hlay := pushLayer_layer st.get_free.2 free1 b1
          have hfr_mem : st.get_free.2.frontier ∈
              st.get_free.2.layer (st.get_free.2.used - 1) :=
            headI_mem (b3 _ (by omega))
          have hfr_reach : Reach g init st.get_free.2.frontier :=
            mreach _ (Or.inr ⟨st.get_free.2.used - 1, by omega, hfr_mem⟩)
          refine ⟨StInv_push ⟨b1, b2, b3, b4, b5, b6⟩ hfe
            (fun x hx => ⟨(hrestp x hx).2.1, (hrestp x hx).2.2⟩), mtopo, ?_, ?_, ?_⟩
          · intro k hk
            have hk2 : k + 1 < st.get_free.2.used + 1 := hk
            show ∃ l, g (((listSwap (st.get_free.2.list ++ [free1])
                st.get_free.2.list.length st.get_free.2.used).getD k []).headI) =
                .ok l ∧
              (∀ d ∈ l, d ∈ st.get_free.2.result ∨
                d ∈ (listSwap (st.get_free.2.list ++ [free1])
                  st.get_free.2.list.length st.get_free.2.used).getD (k + 1) []) ∧
              (∀ x ∈ (listSwap (st.get_free.2.list ++ [free1])
                st.get_free.2.list.length st.get_free.2.used).getD (k + 1) [], x ∈ l)
            rw [hlay k, hlay (k + 1)]
            by_cases hku : k + 1 = st.get_free.2.used
            · rw [if_neg (show ¬ k = st.get_free.2.used from by omega),
                if_neg (show ¬ k = st.get_free.2.list.length from by omega),
                if_pos hku]
              rw [show k = st.get_free.2.used - 1 from by omega]
              refine ⟨deps, hg, fun d hd => ?_, fun x hx => (hrestp x hx).1⟩
              rcases hcov d hd with h1 | h1
              · exact Or.inl h1
              · exact Or.inr h1
            · rw [if_neg (show ¬ k = st.get_free.2.used from by omega),
                if_neg (show ¬ k = st.get_free.2.list.length from by omega),
                if_neg hku,
                if_neg (show ¬ k + 1 = st.get_free.2.list.length from by omega)]
              exact mpd k (by omega)
          · intro x hx
            rcases hx with hx | ⟨k, hk, hx⟩
            · exact mreach x (Or.inl hx)
            · have hk2 : k < st.get_free.2.used + 1 := hk
              have hx2 : x ∈ (listSwap (st.get_free.2.list ++ [free1])
                  st.get_free.2.list.length st.get_free.2.used).getD k [] := hx
              rw [hlay k] at hx2
              by_cases hku : k = st.get_free.2.used
              · rw [if_pos hku] at hx2
                have hxdeps : x ∈ deps := (hrestp x hx2).1
                obtain ⟨a, ha, har⟩ := hfr_reach
                exact ⟨a, ha, Relation.ReflTransGen.tail har ⟨deps, hg, hxdeps⟩⟩
              · rw [if_neg hku, if_neg (by omega)] at hx2
                exact mreach x (Or.inr ⟨k, by omega, hx2⟩)
          · intro x hx
            rcases mcov x hx with h1 | ⟨k, hk, h1⟩
            · exact Or.inl h1
            · right
              refine ⟨k, show k < st.get_free.2.used + 1 from by omega, ?_⟩
              show x ∈ (listSwap (st.get_free.2.list ++ [free1])
                st.get_free.2.list.length st.get_free.2.used).getD k []
              rw [hlay k, if_neg (show ¬ k = st.get_free.2.used from by omega),
                if_neg (show ¬ k = st.get_free.2.list.length from by omega)]
              exact h1

/-! ## The driver on successful runs -/

theorem processFull_ok_spec (g : T → Except E (List T)) (init : List T) :
    ∀ (fuel : Nat) (st : DepMap T) (res : List T),
      GInv g init st → (DepMap.processFull g fuel st).1 = some (.ok res) →
      res.Nodup ∧ (∀ x ∈ res, ∃ l, g x = .ok l ∧ ∀ d ∈ l, Before res d x) ∧
      (∀ x ∈ init, x ∈ res) ∧ (∀ x ∈ res, Reach g init x) := by
  intro fuel
  induction fuel with
  | zero =>
    intro st res hinv h
    have h2 : (DepMap.processFull g 0 st) = (none, []) := rfl
    rw [h2] at h
    simp at h
  | succ fuel ih =>
    intro st res hinv h
    by_cases h0 : st.used = 0
    · rw [processFull_done g fuel h0] at h
      have h2 : some (Except.ok st.result : Except (Error T E) (List T)) =
          some (.ok res) := h
      have h3 : st.result = res := by simpa using h2
      subst h3
      refine ⟨hinv.base.2.2.2.2.2, hinv.topo, ?_,
        fun x hx => hinv.reachAll x (Or.inl hx)⟩
      intro x hx
      rcases hinv.initCov x hx with h1 | ⟨k, hk, -⟩
      · exact h1
      · omega
    · rcases hadd : st.add g with e | ⟨st1, r⟩
      · rw [processFull_err g fuel h0 hadd] at h
        exact absurd (show some (Except.error (Error.fromUser e) :
          Except (Error T E) (List T)) = some (.ok res) from h) (by simp [Error.fromUser])
      · rcases r with _ | chain
        · rw [processFull_next g fuel h0 hadd] at h
          exact ih st1 res (add_GInv g init hinv hadd) h
        · rw [processFull_cycle g fuel h0 hadd] at h
          exact absurd (show some (Except.error (Error.CyclicDep
            (((st1.list.take st1.used).drop (st1.used - chain.length)).map List.headI)) :
            Except (Error T E) (List T)) = some (.ok res) from h) (by simp)

/-! ## Claim C1: topological validity -/

/-- C1: for every producer and every run in which `process` returns
`Ok result`, and for all items `a` and `b` in the result such that `b`
is a direct or transitive dependency of `a` (as yielded by the
producer), `b` appears strictly before `a` in the result. -/
theorem c1_topological_validity (g : T → Except E (List T)) (init : List T) (fuel : Nat)
    (res : List T) (a b : T)
    (hrun : DepMap.process g fuel init = some (.ok res))
    (ha : a ∈ res) (hb : b ∈ res)
    (hdep : Relation.TransGen (DirectDep g) a b) :
    Before res b a := by
  obtain ⟨hnd, htopo, -, -⟩ :=
    processFull_ok_spec g init fuel (DepMap.new init) res (GInv_new g init) hrun
  have key : ∀ a2, Relation.TransGen (DirectDep g) a2 b → a2 ∈ res → Before res b a2 := by
    intro a2 hdep2
    induction hdep2 using Relation.TransGen.head_induction_on with
    | base hab =>
      intro hmem
      obtain ⟨l, hok, hsub⟩ := htopo _ hmem
      obtain ⟨l2, hok2, hbmem⟩ := hab
      rw [hok] at hok2
      injection hok2 with hll
      exact hsub b (hll ▸ hbmem)
    | ih h1 h2 ih2 =>
      intro hmem
      obtain ⟨l, hok, hsub⟩ := htopo _ hmem
      obtain ⟨l2, hok2, hcmem⟩ := h1
      rw [hok] at hok2
      injection hok2 with hll
      have hbc := hsub _ (hll ▸ hcmem)
      exact before_trans (ih2 (before_mem_left hbc)) hbc
  exact key a hdep ha

/-- C1 witness: in the diamond example the result is `[3, 1, 2, 0]`
(D, B, C, A), and `3` (D), a transitive dependency of `0` (A), appears
strictly before it. -/
theorem c1_topological_validity_witness : Before [3, 1, 2, 0] 3 0 :=
  c1_topological_validity exProdDiamond [0] 10 [3, 1, 2, 0] 0 3 (by decide)
    (by decide) (by decide)
    (Relation.TransGen.head
      (show DirectDep exProdDiamond 0 1 from ⟨[1, 2], rfl, by decide⟩)
      (Relation.TransGen.single
        (show DirectDep exProdDiamond 1 3 from ⟨[3], rfl, by decide⟩)))

/-! ## Claim C4: the producer is invoked at most once per item -/

theorem add_none_next_cond (g : T → Except E (List T)) {st st1 : DepMap T}
    (hst : StInv st) (hadd : st.add g = .ok (st1, none)) {c : T}
    (hc : c ∈ st.result ∨ ∃ j, j + 1 < st.used ∧ c = (st.layer j).headI) :
    c ∈ st1.result ∨ ∃ j, j + 1 < st1.used ∧ c = (st1.layer j).headI := by
  by_cases h0 : st.used = 0
  · rcases hc with hc | ⟨j, hj, -⟩
    · rw [add_eq_empty g h0] at hadd
      injection hadd with hadd
      injection hadd with hadd1 hadd2
      rw [← hadd1]
      exact Or.inl hc
    · omega
  · have hmst := get_free_StInv st hst
    have hfe : freeEmpty st := hst.2.1
    rcases hg : g st.get_free.2.frontier with e | deps
    · rw [add_eq_err g h0 hg] at hadd
      exact absurd hadd (by simp)
    · rcases hscan : scanDeps st.get_free.2.result st.get_free.2.heads st.get_free.1 deps
        with pos | free1
      · rw [add_eq_cycle g h0 hg hscan] at hadd
        injection hadd with hadd
        injection hadd with hadd1 hadd2
        exact absurd hadd2 (by simp)
      · by_cases hfe1 : free1 = []
        · -- finalization cascade
          subst hfe1
          rw [add_eq_done_nil g h0 hg hscan] at hadd
          injection hadd with hadd
          injection hadd with hadd1 hadd2
          rw [← hadd1]
          have O := drop_cur_out hmst
          obtain ⟨news, hnews, -, -⟩ := O.res_ext
          rcases hc with hc | ⟨j, hj, hc⟩
          · left
            rw [show st.get_free.2.drop_cur.result =
                st.get_free.2.result ++ news from hnews, get_free_result]
            exact List.mem_append_left _ hc
          · by_cases hj2 : j + 1 < st.get_free.2.drop_cur.used
            · right
              refine ⟨j, hj2, ?_⟩
              rw [show st.get_free.2.drop_cur.layer j =
                  st.get_free.2.layer j from O.lower j hj2, get_free_layer st hfe]
              exact hc
            · left
              have hju : j < st.get_free.2.used := by
                rw [get_free_used]
                omega
              have hj3 : st.get_free.2.drop_cur.used - 1 ≤ j := by omega
              have hp := O.heads_pushed j hj3 hju
              have hlayj : st.get_free.2.list.getD j [] = st.layer j :=
                get_free_layer st hfe j
              rw [hlayj] at hp
              rwa [hc]
        · -- descend
          rw [add_eq_done_push g h0 hg hscan hfe1] at hadd
          injection hadd with hadd
          injection hadd with hadd1 hadd2
          rw [← hadd1]
          have hlay := pushLayer_layer st.get_free.2 free1 hmst.1
          rcases hc with hc | ⟨j, hj, hc⟩
          · left
            show c ∈ st.get_free.2.result
            rw [get_free_result]
            exact hc
          · right
            have hju : j + 1 < st.get_free.2.used := by
              rw [get_free_used]
              omega
            refine ⟨j, show j + 1 < st.get_free.2.used + 1 from by omega, ?_⟩
            show c = ((listSwap (st.get_free.2.list ++ [free1])
              st.get_free.2.list.length st.get_free.2.used).getD j []).headI
            rw [hlay j, if_neg (show ¬ j = st.get_free.2.used from by omega),
              if_neg (show ¬ j = st.get_free.2.list.length from by
                have := hmst.1
                omega)]
            rw [get_free_layer st hfe]
            exact hc

theorem add_none_frontier (g : T → Except E (List T)) {st st1 : DepMap T}
    (hst : StInv st) (h0 : st.used ≠ 0) (hadd : st.add g = .ok (st1, none)) :
    st.frontier ∈ st1.result ∨
      ∃ j, j + 1 < st1.used ∧ st.frontier = (st1.layer j).headI := by
  have hmst := get_free_StInv st hst
  have hfe : freeEmpty st := hst.2.1
  rcases hg : g st.get_free.2.frontier with e | deps
  · rw [add_eq_err g h0 hg] at hadd
    exact absurd hadd (by simp)
  · rcases hscan : scanDeps st.get_free.2.result st.get_free.2.heads st.get_free.1 deps
      with pos | free1
    · rw [add_eq_cycle g h0 hg hscan] at hadd
      injection hadd with hadd
      injection hadd with hadd1 hadd2
      exact absurd hadd2 (by simp)
    · by_cases hfe1 : free1 = []
      · subst hfe1
        rw [add_eq_done_nil g h0 hg hscan] at hadd
        injection hadd with hadd
        injection hadd with hadd1 hadd2
        rw [← hadd1]
        left
        have O := drop_cur_out hmst
        have hju : st.get_free.2.used - 1 < st.get_free.2.used := by
          rw [get_free_used]
          omega
        have hj3 : st.get_free.2.drop_cur.used - 1 ≤ st.get_free.2.used - 1 := by
          have := O.used_le
          omega
        have hp := O.heads_pushed _ hj3 hju
        have hlayj : st.get_free.2.list.getD (st.get_free.2.used - 1) [] =
            st.layer (st.get_free.2.used - 1) := get_free_layer st hfe _
        rw [hlayj] at hp
        show st.frontier ∈ st.get_free.2.drop_cur.result
        have hfr : st.frontier = (st.layer (st.get_free.2.used - 1)).headI := by
          rw [get_free_used]
          rfl
        rwa [← hfr] at hp
      · rw [add_eq_done_push g h0 hg hscan hfe1] at hadd
        injection hadd with hadd
        injection hadd with hadd1 hadd2
        rw [← hadd1]
        right
        have hlay := pushLayer_layer st.get_free.2 free1 hmst.1
        have hju : st.get_free.2.used - 1 + 1 = st.get_free.2.used := by
          rw [get_free_used]
          omega
        refine ⟨st.get_free.2.used - 1,
          show st.get_free.2.used - 1 + 1 < st.get_free.2.used + 1 from by
            rw [hju]
            omega, ?_⟩
        show st.frontier = ((listSwap (st.get_free.2.list ++ [free1])
          st.get_free.2.list.length st.get_free.2.used).getD
            (st.get_free.2.used - 1) []).headI
        rw [hlay _, if_neg (show ¬ st.get_free.2.used - 1 = st.get_free.2.used from by
            rw [get_free_used]
            omega),
          if_neg (show ¬ st.get_free.2.used - 1 = st.get_free.2.list.length from by
            have := hmst.1
            rw [get_free_used] at *
            omega)]
        rw [get_free_layer st hfe, get_free_used]
        rfl

theorem calls_avoid (g : T → Except E (List T)) :
    ∀ (fuel : Nat) (st : DepMap T), StInv st →
      ∀ c, (c ∈ st.result ∨ ∃ j, j + 1 < st.used ∧ c = (st.layer j).headI) →
      c ∉ (DepMap.processFull g fuel st).2 := by
  intro fuel
  induction fuel with
  | zero =>
    intro st hst c hc
    have h2 : DepMap.processFull g 0 st = (none, []) := rfl
    rw [h2]
    simp
  | succ fuel ih =>
    intro st hst c hc
    by_cases h0 : st.used = 0
    · rw [processFull_done g fuel h0]
      simp
    · have hcfr : c ≠ st.frontier := by
        rcases hc with hc | ⟨j, hj, hc⟩
        · intro hceq
          have h2 : st.frontier ∈ st.result := hceq ▸ hc
          exact hst.2.2.2.2.1 (st.used - 1) (by omega) h2
        · intro hceq
          have hd := hst.headsDistinct_of j (by omega) (st.used - 1) (by omega)
            (by omega)
          rw [← hc, hceq] at hd
          exact hd rfl
      rcases hadd : st.add g with e | ⟨st1, r⟩
      · rw [processFull_err g fuel h0 hadd]
        show c ∉ [st.frontier]
        simp [hcfr]
      · rcases r with _ | chain
        · rw [processFull_next g fuel h0 hadd]
          show c ∉ st.frontier :: (DepMap.processFull g fuel st1).2
          intro hmem
          rcases List.mem_cons.1 hmem with h1 | h1
          · exact hcfr h1
          · exact ih st1 (add_StInv g hst hadd) c (add_none_next_cond g hst hadd hc) h1
        · rw [processFull_cycle g fuel h0 hadd]
          show c ∉ [st.frontier]
          simp [hcfr]

theorem calls_nodup (g : T → Except E (List T)) :
    ∀ (fuel : Nat) (st : DepMap T), StInv st →
      ((DepMap.processFull g fuel st).2).Nodup := by
  intro fuel
  induction fuel with
  | zero =>
    intro st hst
    have h2 : DepMap.processFull g 0 st = (none, []) := rfl
    rw [h2]
    exact List.nodup_nil
  | succ fuel ih =>
    intro st hst
    by_cases h0 : st.used = 0
    · rw [processFull_done g fuel h0]
      exact List.nodup_nil
    · rcases hadd : st.add g with e | ⟨st1, r⟩
      · rw [processFull_err g fuel h0 hadd]
        exact List.nodup_singleton _
      · rcases r with _ | chain
        · rw [processFull_next g fuel h0 hadd]
          show (st.frontier :: (DepMap.processFull g fuel st1).2).Nodup
          refine List.Nodup.cons ?_ (ih st1 (add_StInv g hst hadd))
          exact calls_avoid g fuel st1 (add_StInv g hst hadd) st.frontier
            (add_none_frontier g hst h0 hadd)
        · rw [processFull_cycle g fuel h0 hadd]
          exact List.nodup_singleton _

/-- C4: within a single run of `process`, the producer is invoked at most
once per distinct item (under equality): the recorded list of all
producer-invocation arguments contains no duplicates, for every producer,
initial list and fuel — in particular even when an item is queued under
several parents. -/
theorem c4_producer_once (g : T → Except E (List T)) (init : List T) (fuel : Nat) :
    ((DepMap.processFull g fuel (DepMap.new init)).2).Nodup :=
  calls_nodup g fuel (DepMap.new init) (StInv_new init)

/-! ## Termination of the driver -/

theorem nodup_subset_length {A : Type} [DecidableEq A] {l u : List A} (hnd : l.Nodup)
    (hsub : ∀ x ∈ l, x ∈ u) : l.length ≤ u.length := by
  have h1 : l.toFinset.card = l.length := List.toFinset_card_of_nodup hnd
  have h2 : l.toFinset ⊆ u.toFinset := fun x hx =>
    List.mem_toFinset.2 (hsub x (List.mem_toFinset.1 hx))
  have h3 := Finset.card_le_card h2
  have h4 : u.toFinset.card ≤ u.length := u.toFinset_card_le
  omega

theorem heads_nodup {st : DepMap T} (hst : StInv st) : st.heads.Nodup := by
  rw [List.Nodup, List.pairwise_iff_getElem]
  intro i j hi hj hij
  have hbi : i < st.heads.length := hi
  have hbj : j < st.heads.length := hj
  rw [heads_length hst.1] at hi hj
  have h1 : st.heads[i] = (st.layer i).headI := by
    rw [← getD_eq_getElem (d := (st.layer i).headI) hbi]
    exact heads_getD_eq hst.1 hi _
  have h2 : st.heads[j] = (st.layer j).headI := by
    rw [← getD_eq_getElem (d := (st.layer j).headI) hbj]
    exact heads_getD_eq hst.1 hj _
  rw [h1, h2]
  exact hst.headsDistinct_of i hi j hj (by omega)

theorem used_le_bound (g : T → Except E (List T)) (init univ : List T) {st : DepMap T}
    (h : GInv g init st) (huniv : ∀ x, Reach g init x → x ∈ univ) :
    st.used ≤ univ.length := by
  have h1 : st.heads.length = st.used := heads_length h.base.1
  rw [← h1]
  apply nodup_subset_length (heads_nodup h.base)
  intro c hc
  obtain ⟨j, hj1, -, hj3⟩ := heads_exists hc
  apply huniv
  apply h.reachAll
  right
  exact ⟨j, hj1, hj3 ▸ headI_mem (h.base.2.2.1 j hj1)⟩

theorem result_le_bound (g : T → Except E (List T)) (init univ : List T) {st : DepMap T}
    (h : GInv g init st) (huniv : ∀ x, Reach g init x → x ∈ univ) :
    st.result.length ≤ univ.length := by
  apply nodup_subset_length h.base.2.2.2.2.2
  intro c hc
  exact huniv c (h.reachAll c (Or.inl hc))

theorem gauge_lt {N r r2 u u2 : Nat} (hr : r < r2) (hrN : r2 ≤ N + 1) :
    (N + 1 - r2) * (N + 2) + (N + 1 - u2) < (N + 1 - r) * (N + 2) + (N + 1 - u) := by
  have h1 : N + 1 - r2 + 1 ≤ N + 1 - r := by omega
  calc (N + 1 - r2) * (N + 2) + (N + 1 - u2)
      ≤ (N + 1 - r2) * (N + 2) + (N + 1) := by omega
    _ < (N + 1 - r2) * (N + 2) + (N + 2) := by omega
    _ = (N + 1 - r2 + 1) * (N + 2) := by ring
    _ ≤ (N + 1 - r) * (N + 2) := Nat.mul_le_mul_right _ h1
    _ ≤ (N + 1 - r) * (N + 2) + (N + 1 - u) := Nat.le_add_right _ _

theorem gauge_step (g : T → Except E (List T)) (init univ : List T) {st st1 : DepMap T}
    (h : GInv g init st) (huniv : ∀ x, Reach g init x → x ∈ univ)
    (h0 : st.used ≠ 0) (hadd : st.add g = .ok (st1, none)) :
    gauge univ.length st1 < gauge univ.length st := by
  have h1 := add_GInv g init h hadd
  have hu := used_le_bound g init univ h huniv
  have hr1 := result_le_bound g init univ h1 huniv
  have hmst := get_free_StInv st h.base
  rcases hg : g st.get_free.2.frontier with e | deps
  · rw [add_eq_err g h0 hg] at hadd
    exact absurd hadd (by simp)
  · rcases hscan : scanDeps st.get_free.2.result st.get_free.2.heads st.get_free.1 deps
      with pos | free1
    · rw [add_eq_cycle g h0 hg hscan] at hadd
      injection hadd with hadd
      injection hadd with hadd1 hadd2
      exact absurd hadd2 (by simp)
    · by_cases hfe1 : free1 = []
      · -- cascade: the result strictly grows
        subst hfe1
        rw [add_eq_done_nil g h0 hg hscan] at hadd
        injection hadd with hadd
        injection hadd with hadd1 hadd2
        have O := drop_cur_out hmst
        obtain ⟨news, hnews, hne, -⟩ := O.res_ext
        have hnews_ne : news ≠ [] := hne (by rw [get_free_used]; exact h0)
        have hrgrow : st.result.length < st1.result.length := by
          rw [← hadd1]
          have : st.get_free.2.drop_cur.result.length =
              st.get_free.2.result.length + news.length := by
            rw [show st.get_free.2.drop_cur.result =
              st.get_free.2.result ++ news from hnews]
            simp
          rw [this, get_free_result]
          have : news.length ≠ 0 := fun hc => hnews_ne (List.length_eq_zero.1 hc)
          omega
        show (univ.length + 1 - st1.result.length) * (univ.length + 2) +
            (univ.length + 1 - st1.used) <
          (univ.length + 1 - st.result.length) * (univ.length + 2) +
            (univ.length + 1 - st.used)
        exact gauge_lt hrgrow (by omega)
      · -- descend: used strictly grows, result unchanged
        rw [add_eq_done_push g h0 hg hscan hfe1] at hadd
        injection hadd with hadd
        injection hadd with hadd1 hadd2
        have hres : st1.result = st.result := by
          rw [← hadd1]
          show st.get_free.2.result = st.result
          exact get_free_result st
        have hused : st1.used = st.used + 1 := by
          rw [← hadd1]
          show st.get_free.2.used + 1 = st.used + 1
          rw [get_free_used]
        show (univ.length + 1 - st1.result.length) * (univ.length + 2) +
            (univ.length + 1 - st1.used) <
          (univ.length + 1 - st.result.length) * (univ.length + 2) +
            (univ.length + 1 - st.used)
        rw [hres, hused]
        have h2 : st.used < univ.length + 1 := by omega
        omega

theorem processFull_terminates (g : T → Except E (List T)) (init univ : List T)
    (huniv : ∀ x, Reach g init x → x ∈ univ) :
    ∀ (n : Nat) (st : DepMap T), GInv g init st → gauge univ.length st ≤ n →
      ((DepMap.processFull g (n + 1) st).1).isSome := by
  intro n
  induction n with
  | zero =>
    intro st h hgauge
    by_cases h0 : st.used = 0
    · rw [processFull_done g 0 h0]
      rfl
    · rcases hadd : st.add g with e | ⟨st1, r⟩
      · rw [processFull_err g 0 h0 hadd]
        rfl
      · rcases r with _ | chain
        · exfalso
          have := gauge_step g init univ h huniv h0 hadd
          omega
        · rw [processFull_cycle g 0 h0 hadd]
          rfl
  | succ n ih =>
    intro st h hgauge
    by_cases h0 : st.used = 0
    · rw [processFull_done g (n + 1) h0]
      rfl
    · rcases hadd : st.add g with e | ⟨st1, r⟩
      · rw [processFull_err g (n + 1) h0 hadd]
        rfl
      · rcases r with _ | chain
        · rw [processFull_next g (n + 1) h0 hadd]
          show ((DepMap.processFull g (n + 1) st1).1).isSome
          have hdec := gauge_step g init univ h huniv h0 hadd
          exact ih st1 (add_GInv g init h hadd) (by omega)
        · rw [processFull_cycle g (n + 1) h0 hadd]
          rfl

theorem process_terminates (g : T → Except E (List T)) (init univ : List T)
    (huniv : ∀ x, Reach g init x → x ∈ univ) :
    ∃ fuel out, (DepMap.processFull g fuel (DepMap.new init)).1 = some out := by
  have h := processFull_terminates g init univ huniv
    (gauge univ.length (DepMap.new init)) (DepMap.new init) (GInv_new g init) le_rfl
  obtain ⟨out, hout⟩ := Option.isSome_iff_exists.1 h
  exact ⟨_, out, hout⟩

/-! ## Cycles force the cycle error; infallible producers never yield UserDef -/

theorem add_cycle_creates_cycle (g : T → Except E (List T)) (init : List T)
    {st st1 : DepMap T} {chain : List T} (h : GInv g init st)
    (hadd : st.add g = .ok (st1, some chain)) :
    ∃ a, Reach g init a ∧ Relation.TransGen (DirectDep g) a a := by
  by_cases h0 : st.used = 0
  · rw [add_eq_empty g h0] at hadd
    injection hadd with hadd
    injection hadd with hadd1 hadd2
    exact absurd hadd2 (by simp)
  · rcases hg : g st.get_free.2.frontier with e | deps
    · rw [add_eq_err g h0 hg] at hadd
      exact absurd hadd (by simp)
    · rcases hscan : scanDeps st.get_free.2.result st.get_free.2.heads st.get_free.1 deps
        with pos | free1
      · -- the cycle branch: reconstruct an actual cycle in the graph
        obtain ⟨pre, d, post, heqdeps, -, -, hposition⟩ := scanDeps_cycle_spec hscan
        rw [get_free_heads] at hposition
        obtain ⟨hposlt, hposhit, -⟩ := position_some_spec d hposition
        rw [heads_length h.base.1] at hposlt
        rw [heads_getD_eq h.base.1 hposlt] at hposhit
        have hhead : (st.layer pos).headI = d := by simpa using hposhit
        have hgst : g st.frontier = .ok deps := by
          rw [← get_free_frontier st h0]
          exact hg
        have hdmem : d ∈ deps := by
          rw [heqdeps]
          simp
        have hedge : ∀ k, k + 1 < st.used →
            DirectDep g ((st.layer k).headI) ((st.layer (k + 1)).headI) := by
          intro k hk
          obtain ⟨l, hok, -, hmem⟩ := h.parentDeps k hk
          exact ⟨l, hok, hmem _ (headI_mem (h.base.2.2.1 (k + 1) hk))⟩
        have hpath : ∀ m, pos + m < st.used →
            Relation.ReflTransGen (DirectDep g) ((st.layer pos).headI)
              ((st.layer (pos + m)).headI) := by
          intro m
          induction m with
          | zero => intro _; exact Relation.ReflTransGen.refl
          | succ m ihm =>
            intro hm
            exact Relation.ReflTransGen.tail (ihm (by omega))
              (hedge (pos + m) (by omega))
        have hfront : Relation.ReflTransGen (DirectDep g) ((st.layer pos).headI)
            ((st.layer (st.used - 1)).headI) := by
          have := hpath (st.used - 1 - pos) (by omega)
          rwa [show pos + (st.used - 1 - pos) = st.used - 1 from by omega] at this
        have hlast : DirectDep g ((st.layer (st.used - 1)).headI) ((st.layer pos).headI) := by
          rw [hhead]
          exact ⟨deps, hgst, hdmem⟩
        refine ⟨(st.layer pos).headI, ?_, Relation.TransGen.tail' hfront hlast⟩
        exact h.reachAll _ (Or.inr ⟨pos, hposlt, headI_mem (h.base.2.2.1 pos hposlt)⟩)
      · by_cases hfe1 : free1 = []
        · subst hfe1
          rw [add_eq_done_nil g h0 hg hscan] at hadd
          injection hadd with hadd
          injection hadd with hadd1 hadd2
          exact absurd hadd2 (by simp)
        · rw [add_eq_done_push g h0 hg hscan hfe1] at hadd
          injection hadd with hadd
          injection hadd with hadd1 hadd2
          exact absurd hadd2 (by simp)

theorem processFull_no_cycle_err (g : T → Except E (List T)) (init : List T)
    (hacyc : ∀ a, Reach g init a → ¬ Relation.TransGen (DirectDep g) a a) :
    ∀ (fuel : Nat) (st : DepMap T), GInv g init st → ∀ ch,
      (DepMap.processFull g fuel st).1 ≠ some (.error (.CyclicDep ch)) := by
  intro fuel
  induction fuel with
  | zero =>
    intro st h ch
    have h2 : DepMap.processFull g 0 st = (none, []) := rfl
    rw [h2]
    simp
  | succ fuel ih =>
    intro st h ch
    by_cases h0 : st.used = 0
    · rw [processFull_done g fuel h0]
      intro hc
      exact absurd (show some (Except.ok st.result : Except (Error T E) (List T)) =
        some (.error (.CyclicDep ch)) from hc) (by simp)
    · rcases hadd : st.add g with e | ⟨st1, r⟩
      · rw [processFull_err g fuel h0 hadd]
        intro hc
        exact absurd (show some (Except.error (Error.fromUser e) :
            Except (Error T E) (List T)) = some (.error (.CyclicDep ch)) from hc)
          (by simp [Error.fromUser])
      · rcases r with _ | chain
        · rw [processFull_next g fuel h0 hadd]
          exact ih st1 (add_GInv g init h hadd) ch
        · obtain ⟨a, hra, hta⟩ := add_cycle_creates_cycle g init h hadd
          exact absurd hta (hacyc a hra)

theorem processFull_no_userdef (g : T → List T) :
    ∀ (fuel : Nat) (st : DepMap T) (e : Unit),
      (DepMap.processFull (okProd g) fuel st).1 ≠ some (.error (.UserDef e)) := by
  intro fuel
  induction fuel with
  | zero =>
    intro st e
    have h2 : DepMap.processFull (okProd g) 0 st = (none, []) := rfl
    rw [h2]
    simp
  | succ fuel ih =>
    intro st e
    by_cases h0 : st.used = 0
    · rw [processFull_done (okProd g) fuel h0]
      intro hc
      exact absurd (show some (Except.ok st.result : Except (Error T Unit) (List T)) =
        some (.error (.UserDef e)) from hc) (by simp)
    · rcases hadd : st.add (okProd g) with e2 | ⟨st1, r⟩
      · exfalso
        have := add_error_inv h0 hadd
        exact absurd this (by simp [okProd])
      · rcases r with _ | chain
        · rw [processFull_next (okProd g) fuel h0 hadd]
          exact ih st1 e
        · rw [processFull_cycle (okProd g) fuel h0 hadd]
          intro hc
          exact absurd (show some (Except.error (Error.CyclicDep
              (((st1.list.take st1.used).drop (st1.used - chain.length)).map
                List.headI)) : Except (Error T Unit) (List T)) =
            some (.error (.UserDef e)) from hc) (by simp)

/-! ## Topological facts about a successful result list -/

theorem before_of_topo {g : T → Except E (List T)} {res : List T}
    (htopo : ∀ x ∈ res, ∃ l, g x = .ok l ∧ ∀ d ∈ l, Before res d x)
    {a b : T} (ha : a ∈ res) (hdep : Relation.TransGen (DirectDep g) a b) :
    Before res b a := by
  have key : ∀ a2, Relation.TransGen (DirectDep g) a2 b → a2 ∈ res → Before res b a2 := by
    intro a2 hdep2
    induction hdep2 using Relation.TransGen.head_induction_on with
    | base hab =>
      intro hmem
      obtain ⟨l, hok, hsub⟩ := htopo _ hmem
      obtain ⟨l2, hok2, hbmem⟩ := hab
      rw [hok] at hok2
      injection hok2 with hll
      exact hsub b (hll ▸ hbmem)
    | ih h1 h2 ih2 =>
      intro hmem
      obtain ⟨l, hok, hsub⟩ := htopo _ hmem
      obtain ⟨l2, hok2, hcmem⟩ := h1
      rw [hok] at hok2
      injection hok2 with hll
      have hbc := hsub _ (hll ▸ hcmem)
      exact before_trans (ih2 (before_mem_left hbc)) hbc
  exact key a hdep ha

theorem mem_of_topo_reach {g : T → Except E (List T)} {init res : List T}
    (htopo : ∀ x ∈ res, ∃ l, g x = .ok l ∧ ∀ d ∈ l, Before res d x)
    (hinit : ∀ x ∈ init, x ∈ res) :
    ∀ x, Reach g init x → x ∈ res := by
  rintro x ⟨a, ha, hrt⟩
  induction hrt with
  | refl => exact hinit a ha
  | tail hrt2 hstep ih =>
    obtain ⟨l, hok, hmem⟩ := hstep
    obtain ⟨l2, hok2, hsub⟩ := htopo _ ih
    rw [hok] at hok2
    injection hok2 with hll
    exact before_mem_left (hsub _ (hll ▸ hmem))

/-! ## Auxiliary facts used to discharge hypotheses on concrete graphs -/

theorem reach_subset_closed (g : T → Except E (List T)) (init univ : List T)
    (hinit : ∀ x ∈ init, x ∈ univ)
    (hclosed : ∀ x ∈ univ, ∀ l, g x = .ok l → ∀ d ∈ l, d ∈ univ) :
    ∀ x, Reach g init x → x ∈ univ := by
  rintro x ⟨a, ha, hrt⟩
  induction hrt with
  | refl => exact hinit a ha
  | tail hrt2 hstep ih =>
    obtain ⟨l, hok, hmem⟩ := hstep
    exact hclosed _ ih l hok _ hmem

theorem acyclic_of_rank (g : T → Except E (List T)) (rank : T → Nat)
    (hrank : ∀ a d, DirectDep g a d → rank d < rank a) :
    ∀ a, ¬ Relation.TransGen (DirectDep g) a a := by
  intro a hcyc
  have key : ∀ x y, Relation.TransGen (DirectDep g) x y → rank y < rank x := by
    intro x y hxy
    induction hxy with
    | single h1 => exact hrank _ _ h1
    | tail h1 h2 ihs => exact Nat.lt_trans (hrank _ _ h2) ihs
  exact absurd (key a a hcyc) (Nat.lt_irrefl _)

/-! ## Claim C3: totality for acyclic graphs -/

/-- C3: for every finite acyclic dependency graph — the producer yields a
finite dependency list per item and never errors, a finite list `univ`
covers every item reachable from the initial list, and no reachable item
lies on a dependency cycle — `process` terminates (some fuel makes the
driver return) and returns `Ok result` where `result` contains every
reachable item exactly once: it has no duplicates and its members are
exactly the reachable items. -/
theorem c3_totality_acyclic (g : T → List T) (init univ : List T)
    (huniv : ∀ x, Reach (okProd g) init x → x ∈ univ)
    (hacyc : ∀ a, Reach (okProd g) init a →
      ¬ Relation.TransGen (DirectDep (okProd g)) a a) :
    ∃ fuel res,
      (DepMap.processFull (okProd g) fuel (DepMap.new init)).1 = some (.ok res) ∧
      res.Nodup ∧ ∀ x, x ∈ res ↔ Reach (okProd g) init x := by
  obtain ⟨fuel, out, hout⟩ := process_terminates (okProd g) init univ huniv
  rcases out with err | res
  · exfalso
    rcases err with ch | e
    · exact processFull_no_cycle_err (okProd g) init hacyc fuel (DepMap.new init)
        (GInv_new (okProd g) init) ch hout
    · exact processFull_no_userdef g fuel (DepMap.new init) e hout
  · obtain ⟨hnd, htopo, hinit, hreach⟩ :=
      processFull_ok_spec (okProd g) init fuel (DepMap.new init) res
        (GInv_new (okProd g) init) hout
    refine ⟨fuel, res, hout, hnd, fun x => ⟨hreach x, ?_⟩⟩
    exact fun hr => mem_of_topo_reach htopo hinit x hr

/-- C3 witness: the concrete acyclic chain 0 -> [1], 1 -> []; the
hypotheses are discharged with the closed item universe [0, 1] and the
rank function that sends 0 to 1 and everything else to 0. -/
theorem c3_totality_acyclic_witness :
    ∃ fuel res,
      (DepMap.processFull (okProd exGraphChain) fuel (DepMap.new [0])).1 =
        some (.ok res) ∧
      res.Nodup ∧ ∀ x, x ∈ res ↔ Reach (okProd exGraphChain) [0] x := by
  apply c3_totality_acyclic exGraphChain [0] [0, 1]
  · apply reach_subset_closed
    · intro x hx
      simpa using Or.inl (by simpa using hx)
    · intro x hx l hok d hd
      have hl : exGraphChain x = l := by
        injection hok
      rw [← hl] at hd
      rcases (by simpa using hx : x = 0 ∨ x = 1) with h1 | h1
      · subst h1
        have : d = 1 := by simpa [exGraphChain] using hd
        simp [this]
      · subst h1
        simp [exGraphChain] at hd
  · intro a _
    apply acyclic_of_rank (okProd exGraphChain) (fun n => if n = 0 then 1 else 0)
    intro a2 d hdep
    obtain ⟨l, hok, hmem⟩ := hdep
    have hl : exGraphChain a2 = l := by
      injection hok
    rw [← hl] at hmem
    by_cases ha2 : a2 = 0
    · subst ha2
      have hd1 : d = 1 := by simpa [exGraphChain] using hmem
      subst hd1
      simp
    · simp [exGraphChain, ha2] at hmem

/-! ## Claim C6: cycle detection completeness -/

/-- C6: for every finite dependency graph — producer error-free, a finite
list `univ` covering every reachable item — that contains a cycle among
the items reachable from the initial list, `process` terminates and
returns the `CyclicDependency` error: it neither runs forever nor
returns `Ok`. -/
theorem c6_cycle_completeness (g : T → List T) (init univ : List T)
    (huniv : ∀ x, Reach (okProd g) init x → x ∈ univ)
    (hcyc : ∃ a, Reach (okProd g) init a ∧
      Relation.TransGen (DirectDep (okProd g)) a a) :
    ∃ fuel chain,
      (DepMap.processFull (okProd g) fuel (DepMap.new init)).1 =
        some (.error (.CyclicDep chain)) := by
  obtain ⟨fuel, out, hout⟩ := process_terminates (okProd g) init univ huniv
  rcases out with err | res
  · rcases err with ch | e
    · exact ⟨fuel, ch, hout⟩
    · exact absurd hout (processFull_no_userdef g fuel (DepMap.new init) e)
  · exfalso
    obtain ⟨hnd, htopo, hinit, -⟩ :=
      processFull_ok_spec (okProd g) init fuel (DepMap.new init) res
        (GInv_new (okProd g) init) hout
    obtain ⟨a, hra, hta⟩ := hcyc
    have hamem : a ∈ res := mem_of_topo_reach htopo hinit a hra
    exact before_irrefl (before_of_topo htopo hamem hta)

/-- C6 witness: the two-cycle 0 -> [1], 1 -> [0] from initial list [0],
with item universe [0, 1]. -/
theorem c6_cycle_completeness_witness :
    ∃ fuel chain,
      (DepMap.processFull (okProd exGraphAB) fuel (DepMap.new [0])).1 =
        some (.error (.CyclicDep chain)) := by
  apply c6_cycle_completeness exGraphAB [0] [0, 1]
  · apply reach_subset_closed
    · intro x hx
      simpa using Or.inl (by simpa using hx)
    · intro x hx l hok d hd
      have hl : exGraphAB x = l := by
        injection hok
      rw [← hl] at hd
      rcases (by simpa using hx : x = 0 ∨ x = 1) with h1 | h1
      · subst h1
        have : d = 1 := by simpa [exGraphAB] using hd
        simp [this]
      · subst h1
        have : d = 0 := by simpa [exGraphAB] using hd
        simp [this]
  · refine ⟨0, ⟨0, by simp, Relation.ReflTransGen.refl⟩, ?_⟩
    exact Relation.TransGen.head
      (show DirectDep (okProd exGraphAB) 0 1 from ⟨[1], rfl, by decide⟩)
      (Relation.TransGen.single
        (show DirectDep (okProd exGraphAB) 1 0 from ⟨[0], rfl, by decide⟩))

/-- C5 amended, witness: a concrete instance of the amended statement. -/
theorem c5_amended_witness :
    (DepMap.drop_cur { list := [[1, 2, 3]], result := [], used := 1 } :
        DepMap Nat).layer 0 = [3, 2] ∧
      (DepMap.drop_cur { list := [[1, 2, 3]], result := [], used := 1 } :
        DepMap Nat).result = [] ++ [1] ∧
      (DepMap.drop_cur { list := [[1, 2, 3]], result := [], used := 1 } :
        DepMap Nat).used = 0 + 1 ∧
      (DepMap.drop_cur { list := [[1, 2, 3]], result := [], used := 1 } :
        DepMap Nat).frontier = 3 :=
  c5_amended { list := [[1, 2, 3]], result := [], used := 1 } 1 3 [2] 0
    rfl rfl (by decide) (by decide) (by decide)

end Depmap
